import Mathlib

/-!
Shallow embedding of the rag-quiz ingestion/chunking pipeline
(src/pipeline/p1_ingest.py and src/pipeline/p2_chunker.py).

Text is modelled as `List Char`.  Python loops whose iteration count is
bounded by the text length are modelled with an explicit fuel argument
(fuel exhaustion returns `none` / the unprocessed remainder, and every
use supplies enough fuel); this keeps all definitions structurally
recursive and kernel-computable.
-/

/-- Whitespace class: the code points matched by Python's `str.strip()` and
by `\s` in a Unicode `re` pattern (ASCII whitespace, the C1 separators,
NEL, NBSP and the Unicode space/line/paragraph separators). -/
def isPySpace (c : Char) : Bool :=
  c.toNat = 0x09 || c.toNat = 0x0a || c.toNat = 0x0b || c.toNat = 0x0c ||
  c.toNat = 0x0d || c.toNat = 0x1c || c.toNat = 0x1d || c.toNat = 0x1e ||
  c.toNat = 0x1f || c.toNat = 0x20 || c.toNat = 0x85 || c.toNat = 0xa0 ||
  c.toNat = 0x1680 || (0x2000 ≤ c.toNat && c.toNat ≤ 0x200a) ||
  c.toNat = 0x2028 || c.toNat = 0x2029 || c.toNat = 0x202f ||
  c.toNat = 0x205f || c.toNat = 0x3000

/-- Decimal digit, the `\d` class restricted to ASCII (all digits appearing
in the regulator documents are ASCII). -/
def isDig (c : Char) : Bool := '0' ≤ c && c ≤ '9'

/-- Python `str.strip()`: drop leading and trailing whitespace. -/
def pyStrip (l : List Char) : List Char :=
  ((l.dropWhile isPySpace).reverse.dropWhile isPySpace).reverse

/-- Python slicing `l[a:b]` for `0 ≤ a ≤ b` (clamped at the length). -/
def sliceList (l : List Char) (a b : Nat) : List Char := (l.take b).drop a

/-- Constant `MIN_CHUNK_LENGTH` from p2_chunker.py. -/
def MIN_CHUNK_LENGTH : Nat := 50

/-- Loop body of `chunk_text` (p2_chunker.py lines 53-65): while
`start < len(text)` take the window `[start, min(start+chunk_size, len))`,
emit it when the stripped text reaches `MIN_CHUNK_LENGTH`, stop when the
window reached the end, else advance `start` to `end - overlap`.
`none` means the fuel ran out before the loop finished (the loop would
still be running, which for `overlap ≥ chunk_size` is genuine
non-termination of the Python loop). -/
def chunkTextAux (text : List Char) (chunkSize overlap : Nat) :
    Nat → Nat → Nat → Option (List (Nat × Nat × Nat × List Char))
  | 0, _, _ => none
  | fuel + 1, start, idx =>
    if start < text.length then
      let e := min (start + chunkSize) text.length
      let ck := pyStrip (sliceList text start e)
      if MIN_CHUNK_LENGTH ≤ ck.length then
        if e = text.length then some [(idx, start, e, ck)]
        else (chunkTextAux text chunkSize overlap fuel (e - overlap) (idx + 1)).map
          (fun l => (idx, start, e, ck) :: l)
      else
        if e = text.length then some []
        else chunkTextAux text chunkSize overlap fuel (e - overlap) idx
    else some []

/-- `chunk_text` from p2_chunker.py: returns the list of
`(chunk_index, char_start, char_end, chunk_text)` tuples.  The fuel
`text.length + 1` is enough for every terminating configuration because
`start` strictly increases on each iteration that does not reach the end. -/
def chunk_text (text : List Char) (chunkSize overlap : Nat) :
    List (Nat × Nat × Nat × List Char) :=
  (chunkTextAux text chunkSize overlap (text.length + 1) 0 0).getD []

/-!  Text normalizer: `clean_text` (p1_ingest.py lines 40-88).  Each
`re.sub` of the Python function is one step below; the try/except wrapper
with its per-step reassignment of `text` is `runSteps`. -/

/-- Character class `[​-‏﻿\xa0]` of the first step. -/
def isInvisibleChar (c : Char) : Bool :=
  (0x200B ≤ c.toNat && c.toNat ≤ 0x200F) || c.toNat = 0xFEFF || c.toNat = 0xa0

/-- Step `re.sub(r'[​-‏﻿\xa0]', ' ', text)`: invisible and
non-breaking characters become plain spaces. -/
def cleanStep1 (t : List Char) : List Char :=
  t.map fun c => if isInvisibleChar c then ' ' else c

/-- Step `re.sub(r'[""]', '"', text)`: in the source file the character
class holds two plain ASCII double quotes (not curly ones), so the
substitution replaces `"` by `"`. -/
def cleanStep2a (t : List Char) : List Char :=
  t.map fun c => if c = '"' then '"' else c

/-- Step `re.sub(r"['']", "'", text)`: likewise the class holds two plain
ASCII apostrophes, so the substitution replaces `'` by `'`. -/
def cleanStep2b (t : List Char) : List Char :=
  t.map fun c => if c = '\'' then '\'' else c

/-- Character class `[–—]`: en dash U+2013 or em dash U+2014. -/
def isDashChar (c : Char) : Bool := c.toNat = 0x2013 || c.toNat = 0x2014

/-- Step `re.sub(r'[–—]', '-', text)`: en dash U+2013 and em dash U+2014
become the ASCII hyphen. -/
def cleanStep2c (t : List Char) : List Char :=
  t.map fun c => if isDashChar c then '-' else c

/-- Bullet U+2022. -/
def isBulletChar (c : Char) : Bool := c.toNat = 0x2022

/-- Step `re.sub(r'•', '-', text)`: the bullet U+2022 becomes a hyphen. -/
def cleanStep2d (t : List Char) : List Char :=
  t.map fun c => if isBulletChar c then '-' else c

/-- Matcher for the lookahead `\s*\d+\.`: optional whitespace, then at
least one digit, then a literal dot.  Only the maximal digit run can be
followed by the dot, so no backtracking is needed. -/
def digitsDot : List Char → Bool
  | [] => false
  | c :: cs => if isDig c then digitsDot cs else c = '.'

/-- Existence of a match of `\s*\d+\.` at the head of the list. -/
def lookNum : List Char → Bool
  | [] => false
  | c :: cs => if isDig c then digitsDot cs else isPySpace c && lookNum cs

/-- Sentence-ending punctuation of the lookbehind `(?<![.:;?!])`. -/
def isSentencePunct (c : Char) : Bool :=
  c = '.' || c = ':' || c = ';' || c = '?' || c = '!'

/-- Step `re.sub(r'(?<![.:;?!])\n(?!\s*\d+\.)', ' ', text)`: every newline
becomes a space unless it is preceded by sentence punctuation or followed
(after optional whitespace) by a numbered-line pattern.  The previous
original character is carried along because the regex context looks at
the subject string, not at the replaced output. -/
def cleanStep3Go (prev : Option Char) : List Char → List Char
  | [] => []
  | c :: cs =>
    (if c = '\n' && !(prev.elim false isSentencePunct) && !lookNum cs then ' ' else c)
      :: cleanStep3Go (some c) cs

/-- Step 3 of `clean_text`, see `cleanStep3Go`. -/
def cleanStep3 (t : List Char) : List Char := cleanStep3Go none t

/-- Letter class `[a-zá-úÀ-Ú]` under `re.IGNORECASE`, closed over the
Latin-1 plane: ASCII letters plus U+00C0-U+00DA and U+00E0-U+00FA. -/
def isStep4Letter (c : Char) : Bool :=
  ('a' ≤ c && c ≤ 'z') || ('A' ≤ c && c ≤ 'Z') ||
  (0xC0 ≤ c.toNat && c.toNat ≤ 0xDA) || (0xE0 ≤ c.toNat && c.toNat ≤ 0xFA)

/-- Attempt to match `\n{2,}([a-zá-úÀ-Ú])` at the head of the list (the
part of step 4 after its first letter): a maximal newline run of length
at least two, immediately followed by a letter; returns that letter and
the remainder after it. -/
def step4Try (cs : List Char) : Option (Char × List Char) :=
  let k := (cs.takeWhile (· = '\n')).length
  if 2 ≤ k then
    match cs.drop k with
    | d :: rest => if isStep4Letter d then some (d, rest) else none
    | [] => none
  else none

/-- Scan of step 4, `re.sub(r'([a-zá-úÀ-Ú])\n{2,}([a-zá-úÀ-Ú])', r'\1 \2',
text, flags=re.IGNORECASE)`: a letter, two or more newlines and a letter
collapse to the two letters separated by one space; the scan resumes
after the second letter, as `re.sub` does.  Each step consumes at least
one character, so `t.length` fuel completes the scan. -/
def cleanStep4Go : Nat → List Char → List Char
  | 0, cs => cs
  | _ + 1, [] => []
  | fuel + 1, c :: cs =>
    if isStep4Letter c then
      match step4Try cs with
      | some (d, rest) => c :: ' ' :: d :: cleanStep4Go fuel rest
      | none => c :: cleanStep4Go fuel cs
    else c :: cleanStep4Go fuel cs

/-- Step 4 of `clean_text`, see `cleanStep4Go`. -/
def cleanStep4 (t : List Char) : List Char := cleanStep4Go t.length t

/-- Space or tab, the class `[ \t]`. -/
def isSpTab (c : Char) : Bool := c = ' ' || c = '\t'

/-- Scan of step `re.sub(r'[ \t]+', ' ', text)`: each maximal run of
spaces/tabs becomes a single space. -/
def cleanStep5Go : Nat → List Char → List Char
  | 0, cs => cs
  | _ + 1, [] => []
  | fuel + 1, c :: cs =>
    if isSpTab c then ' ' :: cleanStep5Go fuel (cs.dropWhile isSpTab)
    else c :: cleanStep5Go fuel cs

/-- Step 5 of `clean_text`, see `cleanStep5Go`. -/
def cleanStep5 (t : List Char) : List Char := cleanStep5Go t.length t

/-- Scan of step `re.sub(r'\n{3,}', '\n\n', text)`: maximal newline runs
of length three or more become exactly two newlines. -/
def cleanStep6Go : Nat → List Char → List Char
  | 0, cs => cs
  | _ + 1, [] => []
  | fuel + 1, c :: cs =>
    if c = '\n' then
      let k := 1 + (cs.takeWhile (· = '\n')).length
      (if 3 ≤ k then ['\n', '\n'] else List.replicate k '\n') ++
        cleanStep6Go fuel (cs.dropWhile (· = '\n'))
    else c :: cleanStep6Go fuel cs

/-- Step 6 of `clean_text`, see `cleanStep6Go`. -/
def cleanStep6 (t : List Char) : List Char := cleanStep6Go t.length t

/-- Attempt to match ` *\n *` at the head of the list: optional spaces,
a newline, optional spaces; returns the remainder.  A match exists at a
position exactly when the (possibly empty) space run there is followed by
a newline. -/
def step7Try (cs : List Char) : Option (List Char) :=
  match cs.dropWhile (· = ' ') with
  | '\n' :: r => some (r.dropWhile (· = ' '))
  | _ => none

/-- Scan of step `re.sub(r' *\n *', '\n', text)`: spaces around each
newline are removed. -/
def cleanStep7Go : Nat → List Char → List Char
  | 0, cs => cs
  | _ + 1, [] => []
  | fuel + 1, c :: cs =>
    match step7Try (c :: cs) with
    | some rest => '\n' :: cleanStep7Go fuel rest
    | none => c :: cleanStep7Go fuel cs

/-- Step 7 of `clean_text`, see `cleanStep7Go`. -/
def cleanStep7 (t : List Char) : List Char := cleanStep7Go t.length t

/-- Modelled from the spec: `unicodedata.normalize('NFC', text)` is an
external library call (canonical Unicode composition).  It is modelled as
the identity map, which is exact on text already in composed form — in
particular on all ASCII text, which every concrete input below is. -/
def nfc (t : List Char) : List Char := t

/-- Runner for the `try:` block of `clean_text`/`fix_double_newlines`:
the steps run in order, each reassigning the working text; when a step
fails, the `except` handler returns the text as last assigned, i.e. the
output of the preceding steps.  A step that cannot fail is wrapped with
`some`. -/
def runSteps : List (List Char → Option (List Char)) → List Char → List Char
  | [], t => t
  | f :: fs, t =>
    match f t with
    | some t1 => runSteps fs t1
    | none => t

/-- Runner that requires every step to succeed, returning the final text. -/
def runStepsAll : List (List Char → Option (List Char)) → List Char → Option (List Char)
  | [], t => some t
  | f :: fs, t => (f t).bind (runStepsAll fs)

/-- The step list of `clean_text` (p1_ingest.py lines 56-84), in source
order; the final entry is the `unicodedata.normalize('NFC', text).strip()`
statement. -/
def cleanSteps : List (List Char → Option (List Char)) :=
  [fun t => some (cleanStep1 t), fun t => some (cleanStep2a t),
   fun t => some (cleanStep2b t), fun t => some (cleanStep2c t),
   fun t => some (cleanStep2d t), fun t => some (cleanStep3 t),
   fun t => some (cleanStep4 t), fun t => some (cleanStep5 t),
   fun t => some (cleanStep6 t), fun t => some (cleanStep7 t),
   fun t => some (pyStrip (nfc t))]

/-- `clean_text` from p1_ingest.py: empty input returns empty, otherwise
the steps run inside the try/except wrapper. -/
def clean_text (t : List Char) : List Char :=
  if t.isEmpty then [] else runSteps cleanSteps t

/-!  Second, narrower normalizer: `fix_double_newlines`
(p1_ingest.py lines 91-123). -/

/-- Line-break class `[\n\r  ]` of `fix_double_newlines`. -/
def isNlClass (c : Char) : Bool :=
  c = '\n' || c = '\r' || c.toNat = 0x2028 || c.toNat = 0x2029

/-- Attempt to match `[\n\r  ]+\s*[\n\r  ]+` followed
by a letter, at the head of the list.  Since the line-break class is
contained in `\s` and the letter must follow immediately, a match exists
exactly when the maximal whitespace run has length at least two, starts
and ends with a line-break character, and is followed by a letter. -/
def fixTry (cs : List Char) : Option (Char × List Char) :=
  let r := cs.takeWhile isPySpace
  if 2 ≤ r.length && r.head?.elim false isNlClass && r.getLast?.elim false isNlClass then
    match cs.drop r.length with
    | d :: rest => if isStep4Letter d then some (d, rest) else none
    | [] => none
  else none

/-- Scan of `re.sub(r'([a-zá-úÀ-Ú])[\n\r  ]+\s*[\n\r  ]+([a-zá-úÀ-Ú])',
r'\1 \2', text, flags=re.IGNORECASE)`. -/
def fixStep1Go : Nat → List Char → List Char
  | 0, cs => cs
  | _ + 1, [] => []
  | fuel + 1, c :: cs =>
    if isStep4Letter c then
      match fixTry cs with
      | some (d, rest) => c :: ' ' :: d :: fixStep1Go fuel rest
      | none => c :: fixStep1Go fuel cs
    else c :: fixStep1Go fuel cs

/-- Step 1 of `fix_double_newlines`, see `fixStep1Go`. -/
def fixStep1 (t : List Char) : List Char := fixStep1Go t.length t

/-- Attempt to match ` *\n+ *` at the head of the list: optional spaces,
one or more newlines (a maximal run), optional spaces. -/
def fixStep3Try (cs : List Char) : Option (List Char) :=
  let cs1 := cs.dropWhile (· = ' ')
  let k := (cs1.takeWhile (· = '\n')).length
  if 1 ≤ k then some ((cs1.drop k).dropWhile (· = ' ')) else none

/-- Scan of `re.sub(r' *\n+ *', '\n', text)`: each newline run together
with surrounding spaces becomes a single newline. -/
def fixStep3Go : Nat → List Char → List Char
  | 0, cs => cs
  | _ + 1, [] => []
  | fuel + 1, c :: cs =>
    match fixStep3Try (c :: cs) with
    | some rest => '\n' :: fixStep3Go fuel rest
    | none => c :: fixStep3Go fuel cs

/-- Step 3 of `fix_double_newlines`, see `fixStep3Go`. -/
def fixStep3 (t : List Char) : List Char := fixStep3Go t.length t

/-- The step list of `fix_double_newlines` (lines 104-119): the letter
join, the `[ \t]+` collapse (the same pattern as step 5 of `clean_text`),
the newline-run collapse, then NFC and `strip`. -/
def fixSteps : List (List Char → Option (List Char)) :=
  [fun t => some (fixStep1 t), fun t => some (cleanStep5 t),
   fun t => some (fixStep3 t), fun t => some (pyStrip (nfc t))]

/-- `fix_double_newlines` from p1_ingest.py.  The `isinstance(text, str)`
guard is vacuous in this typed embedding. -/
def fix_double_newlines (t : List Char) : List Char := runSteps fixSteps t

/-!  Document boundary detection (p1_ingest.py lines 24-32, 128-141 and
172-192). -/

/-- Constant `VALID_REGULATIONS` from p1_ingest.py. -/
def VALID_REGULATIONS : List (List Char) :=
  ["Regulamento Campanha ChaveTON".data, "Regulamento Ponto Ton".data,
   "Regulamento Ton na Mão".data, "Regulamento Pronta Entrega".data,
   "Regulamento Indique TapTon".data, "Regulamento Renda Ton".data,
   "Regulamento Renda Extra".data]

/-- Constant `PAGE_SEPARATOR` from p1_ingest.py. -/
def PAGE_SEPARATOR : List Char := "\n\n".data

/-- Python `str.upper()` restricted to a character map on the Latin-1
plane (ASCII letters and the accented letters U+00E0-U+00FE except U+00F7
move down 32 code points); exact for every character of the configured
regulation names. -/
def pyUpper (c : Char) : Char :=
  if 'a' ≤ c && c ≤ 'z' then Char.ofNat (c.toNat - 32)
  else if 0xE0 ≤ c.toNat && c.toNat ≤ 0xFE && c.toNat ≠ 0xF7 then Char.ofNat (c.toNat - 32)
  else c

/-- `name.split('Regulamento ')[-1]`: every configured name starts with
the 12-character "Regulamento " and contains it once, so the last split
piece is the name with those 12 characters dropped.  `re.escape` is the
identity on the resulting letter/space suffixes. -/
def docSuffix (name : List Char) : List Char := name.drop 12

/-- Case-insensitive literal match of `pat` against a prefix of `cs`
(Python `re.IGNORECASE`, character case via `pyUpper`); returns the rest
of `cs` on success. -/
def matchLitCI : List Char → List Char → Option (List Char)
  | [], cs => some cs
  | _ :: _, [] => none
  | p :: ps, c :: cs => if pyUpper p = pyUpper c then matchLitCI ps cs else none

/-- Match of `[\s\n]*` followed by the literal `suf`, case-insensitively,
at the head of the list: either `suf` matches here, or the head is
whitespace and the match happens further on (the backtracking of the
greedy `[\s\n]*` reduced to existence). -/
def wsThenLitCI (suf : List Char) : List Char → Bool
  | [] => (matchLitCI suf []).isSome
  | c :: cs => (matchLitCI suf (c :: cs)).isSome || (isPySpace c && wsThenLitCI suf cs)

/-- Match of the compiled pattern
`(?i)REGULAMENTO[\s\n]*{re.escape(suffix)}` at the head of the list. -/
def docMatchHere (suf cs : List Char) : Bool :=
  match matchLitCI "REGULAMENTO".data cs with
  | some rest => wsThenLitCI suf rest
  | none => false

/-- `pattern.search`: the document pattern matches at some position. -/
def searchDocPat (suf : List Char) : List Char → Bool
  | [] => docMatchHere suf []
  | c :: cs => docMatchHere suf (c :: cs) || searchDocPat suf cs

/-- Header zone of a page: `(text[:400] or "").upper()`. -/
def headerZone (text : List Char) : List Char := (text.take 400).map pyUpper

/-- The `for pattern, name in pattern_docs` loop with `break` (lines
177-180): the first configured regulation whose pattern matches the
header zone. -/
def foundDoc (text : List Char) : Option (List Char) :=
  VALID_REGULATIONS.find? fun name => searchDocPat (docSuffix name) (headerZone text)

/-- Attempt to match `1\.(?!\d)` after optional whitespace at the head of
the list: skip whitespace, then the literal "1." not followed by a
digit. -/
def tryRestart : List Char → Bool
  | '1' :: '.' :: r => !(r.head?.elim false isDig)
  | c :: cs => isPySpace c && tryRestart cs
  | [] => false

/-- Search for `(?m)^\s*1\.(?!\d)`: the pattern must start at a line
start (string start or right after a newline); `atLS` records whether the
current position is one. -/
def restartSearch : Bool → List Char → Bool
  | _, [] => false
  | atLS, c :: cs => (atLS && tryRestart (c :: cs)) || restartSearch (c = '\n') cs

/-- `has_section_restart` (line 182): the page text contains a
start-of-line "1." not followed by another digit. -/
def hasSectionRestart (text : List Char) : Bool := restartSearch true text

/-- The detection loop (lines 173-186): pages are enumerated from 1, and
a page is appended exactly when a document pattern matched its header
zone and its numbering restarts. -/
def detectGo : Nat → List (List Char) → List (Nat × List Char)
  | _, [] => []
  | i, t :: ts =>
    match foundDoc t with
    | some name =>
      if hasSectionRestart t then (i, name) :: detectGo (i + 1) ts
      else detectGo (i + 1) ts
    | none => detectGo (i + 1) ts

/-- The pages marked as document boundaries, with the matched name. -/
def detectedBoundaries (pages : List (List Char)) : List (Nat × List Char) :=
  detectGo 1 pages

/-- `page_docs` after the fallback and the terminal marker (lines
188-192): if no page was marked the whole input is one span of unknown
name from page 1; a synthetic final marker at page N+1 is appended. -/
def pageDocsOf (pages : List (List Char)) : List (Nat × Option (List Char)) :=
  let pd := (detectedBoundaries pages).map fun x => (x.1, some x.2)
  (if pd = [] then [(1, none)] else pd) ++ [(pages.length + 1, none)]

/-- The document spans `(start_page, doc_name, next_page)` from the
consecutive pairs of `page_docs` (line 196). -/
def spansOf (pages : List (List Char)) : List (Nat × Option (List Char) × Nat) :=
  ((pageDocsOf pages).zip (pageDocsOf pages).tail).map fun x => (x.1.1, x.1.2, x.2.1)

/-!  Section segmenter (p1_ingest.py lines 195-252). -/

/-- Attempt to match `(\d{1,2})\.(?!\d)` at the head of the list,
returning the number of characters consumed: the greedy `\d{1,2}` first
tries two digits and a dot, then one digit and a dot, each time checking
that no digit follows the dot. -/
def ddCheck : List Char → Option Nat
  | a :: b :: rest =>
    if isDig a ∧ isDig b then
      match rest with
      | '.' :: r => if r.head?.elim false isDig then none else some 3
      | _ => none
    else if isDig a ∧ b = '.' then
      if rest.head?.elim false isDig then none else some 2
    else none
  | _ => none

/-- Match of `\s*(\d{1,2})\.(?!\d)` at the head of the list, returning
the consumed length: skip whitespace until the digit part matches (the
digit is not whitespace, so only the maximal run needs trying). -/
def wsDigitsDot : List Char → Option Nat
  | [] => none
  | c :: cs =>
    match ddCheck (c :: cs) with
    | some k => some k
    | none => if isPySpace c then (wsDigitsDot cs).map (· + 1) else none

/-- Attempt to match the section marker `(?m)^\s*(\d{1,2})\.(?!\d)` at
position `p` of the block: `p` must be a line start; returns the end
offset of the match. -/
def tryMarker (block : List Char) (p : Nat) : Option Nat :=
  if p = 0 || block.get? (p - 1) = some '\n' then
    (wsDigitsDot (block.drop p)).map (p + ·)
  else none

/-- Scan of `re.finditer` for the section marker: try each position in
order, and resume after the end of each match.  Every step advances the
position, so `block.length + 1` fuel completes the scan. -/
def scanGo (block : List Char) : Nat → Nat → List (Nat × Nat)
  | 0, _ => []
  | fuel + 1, p =>
    if p < block.length then
      match tryMarker block p with
      | some e => (p, e) :: scanGo block fuel (max e (p + 1))
      | none => scanGo block fuel (p + 1)
    else []

/-- `section_matches` (line 208) as the list of `(start, end)` offset
pairs of the marker matches. -/
def scanMarkers (block : List Char) : List (Nat × Nat) :=
  scanGo block (block.length + 1) 0

/-- The untrimmed content span of each section (lines 224-225): from the
end of its marker to the start of the next marker, or to the end of the
block for the last one. -/
def contentSpansGo (block : List Char) : List (Nat × Nat) → List (List Char)
  | [] => []
  | [(_, e)] => [sliceList block e block.length]
  | (_, e) :: (s2, e2) :: ms => sliceList block e s2 :: contentSpansGo block ((s2, e2) :: ms)

/-- The untrimmed content spans of all markers of a block, in order. -/
def contentSpans (block : List Char) : List (List Char) :=
  contentSpansGo block (scanMarkers block)

/-- `page_boundaries` (lines 201-205): one `(page, offset)` pair per page
of the span, the offset growing by the page length plus the separator
length. -/
def pbGo (pages : List (List Char)) : Nat → Nat → Nat → List (Nat × Nat)
  | 0, _, _ => []
  | cnt + 1, pi, off =>
    (pi, off) :: pbGo pages cnt (pi + 1) (off + ((pages.get? (pi - 1)).getD []).length + PAGE_SEPARATOR.length)

/-- The offset map of the span `[startPage, nextPage)`. -/
def pageBoundaries (pages : List (List Char)) (startPage nextPage : Nat) : List (Nat × Nat) :=
  pbGo pages (nextPage - startPage) startPage 0

/-- The attribution loop (lines 238-243) over the consecutive pairs of
the offset map: `page_start` is updated at each interval containing
`start_pos`; when an interval contains `end_pos`, `page_end` is set and
the loop breaks. -/
def attrGo : List ((Nat × Nat) × Nat × Nat) → Nat → Nat → Nat × Nat → Nat × Nat
  | [], _, _, st => st
  | ((pj, oj), (_, oj1)) :: rest, sp, ep, (ps, pe) =>
    let ps1 := if oj ≤ sp ∧ sp < oj1 then pj else ps
    if oj ≤ ep ∧ ep < oj1 then (ps1, pj)
    else attrGo rest sp ep (ps1, pe)

/-- Page attribution of one section: the loop starts from the fallback
`(start_page, next_page - 1)` (lines 236-237). -/
def attrPages (pbs : List (Nat × Nat)) (sp ep fb1 fb2 : Nat) : Nat × Nat :=
  attrGo (pbs.zip pbs.tail) sp ep (fb1, fb2)

/-- Row of the resulting DataFrame (lines 212-219 and 245-252). -/
structure SectionRow where
  doc_name : Option (List Char)
  section_number : List Char
  section_title : List Char
  page_start : Nat
  page_end : Nat
  content : List Char
deriving DecidableEq

/-- Separator class `[\s:–-]` stripped after the title (line 233). -/
def isTitleSep (c : Char) : Bool :=
  isPySpace c || c = ':' || c.toNat = 0x2013 || c = '-'

/-- `re.sub(rf"^{re.escape(section_title)}[\s:–-]*", "", section_text)
.strip()`: when the text starts with the title, the title and the
following separator run are removed; the result is stripped either
way. -/
def dropTitle (title text : List Char) : List Char :=
  if title.isPrefixOf text then pyStrip ((text.drop title.length).dropWhile isTitleSep)
  else pyStrip text

/-- One row of the marker loop (lines 222-252).  `group(1)` of the
marker, the matched digits, is the slice `[s, e-1)` of the match without
its leading whitespace (`e-1` points at the dot). -/
def mkSectionRow (block : List Char) (dn : Option (List Char)) (pbs : List (Nat × Nat))
    (startPage nextPage : Nat) (s e endPos : Nat) : SectionRow :=
  let number := (sliceList block s (e - 1)).dropWhile isPySpace
  let after := (block.drop e).dropWhile isPySpace
  let nextLine := pyStrip (after.takeWhile (· ≠ '\n'))
  let title := if nextLine ≠ [] ∧ ¬(nextLine.head?.elim false isDig) then nextLine else []
  let text0 := pyStrip (sliceList block e endPos)
  let text := if title ≠ [] then dropTitle title text0 else text0
  let pg := attrPages pbs e endPos startPage (nextPage - 1)
  ⟨dn, number, title, pg.1, pg.2, text⟩

/-- The marker loop: each marker yields one row, the content running to
the next marker's start or to the block end. -/
def sectionRowsGo (block : List Char) (dn : Option (List Char)) (pbs : List (Nat × Nat))
    (startPage nextPage : Nat) : List (Nat × Nat) → List SectionRow
  | [] => []
  | [(s, e)] => [mkSectionRow block dn pbs startPage nextPage s e block.length]
  | (s, e) :: (s2, e2) :: ms =>
    mkSectionRow block dn pbs startPage nextPage s e s2
      :: sectionRowsGo block dn pbs startPage nextPage ((s2, e2) :: ms)

/-- Sections of one text block (lines 208-252): with no marker the whole
stripped block is a single untitled section spanning the whole span;
otherwise one row per marker. -/
def sectionsOfBlock (block : List Char) (dn : Option (List Char)) (pbs : List (Nat × Nat))
    (startPage nextPage : Nat) : List SectionRow :=
  if scanMarkers block = [] then [⟨dn, [], [], startPage, nextPage - 1, pyStrip block⟩]
  else sectionRowsGo block dn pbs startPage nextPage (scanMarkers block)

/-- Rows of one document span (lines 196-252): the span's pages joined
with the separator, the offset map, then the section rows. -/
def spanRows (pages : List (List Char)) (s nx : Nat) (dn : Option (List Char)) : List SectionRow :=
  let block := List.intercalate PAGE_SEPARATOR ((pages.drop (s - 1)).take (nx - s))
  sectionsOfBlock block dn (pageBoundaries pages s nx) s nx

/-- `extract_sections_grouped` from the cleaned page list on (lines
172-256): detection, spans, per-span section rows, and the final
`fix_double_newlines` pass over every content. -/
def extract_sections_grouped (pages : List (List Char)) : List SectionRow :=
  ((spansOf pages).map (fun sp => spanRows pages sp.1 sp.2.2 sp.2.1)).flatten.map
    fun r => { r with content := fix_double_newlines r.content }

/-!  Record assembler: `df_to_chunks_list` (p2_chunker.py lines 70-103).
The random `uuid4()` stream is modelled by an identifier supply
`gen : Nat → List Char` consulted once per emitted record, in order. -/

/-- Flat output record (the dict built at lines 92-102). -/
structure Record where
  id : List Char
  doc_name : Option (List Char)
  section_number : List Char
  section_title : List Char
  page_range : List Char
  chunk_index : Nat
  char_start : Nat
  char_end : Nat
  text : List Char
deriving DecidableEq

/-- Python `row.get('section_title') or row.get('doc_name') or ""`:
the first truthy value, where a missing name and an empty string are
falsy. -/
def titleFallback (st : List Char) (dn : Option (List Char)) : List Char :=
  if st ≠ [] then st
  else match dn with
    | some d => if d ≠ [] then d else []
    | none => []

/-- One record of the appended dict: fresh identifier, carried metadata,
`page_range` formatted as `"<page_start>-<page_end>"`, and the chunk
tuple's fields. -/
def buildRecord (r : SectionRow) (rid : List Char) (c : Nat × Nat × Nat × List Char) : Record :=
  { id := rid, doc_name := r.doc_name, section_number := r.section_number,
    section_title := titleFallback r.section_title r.doc_name,
    page_range := (Nat.repr r.page_start).data ++ '-' :: (Nat.repr r.page_end).data,
    chunk_index := c.1, char_start := c.2.1, char_end := c.2.2.1, text := c.2.2.2 }

/-- The row loop of `df_to_chunks_list`, threading the count of
identifiers consumed so far. -/
def dfGo (cs ov : Nat) (gen : Nat → List Char) : List SectionRow → Nat → List Record
  | [], _ => []
  | r :: rs, k =>
    ((chunk_text r.content cs ov).enum.map fun ic => buildRecord r (gen (k + ic.1)) ic.2)
      ++ dfGo cs ov gen rs (k + (chunk_text r.content cs ov).length)

/-- `df_to_chunks_list` from p2_chunker.py over the section rows in
DataFrame order. -/
def df_to_chunks_list (rows : List SectionRow) (cs ov : Nat) (gen : Nat → List Char) :
    List Record :=
  dfGo cs ov gen rows 0

/-- The non-identifier fields of a record, for comparing runs. -/
def recordFields (r : Record) :
    Option (List Char) × List Char × List Char × List Char × Nat × Nat × Nat × List Char :=
  (r.doc_name, r.section_number, r.section_title, r.page_range,
   r.chunk_index, r.char_start, r.char_end, r.text)

/-- Membership test of a page ordinal in a span (half-open page range). -/
def inSpan (q : Nat) (sp : Nat × Option (List Char) × Nat) : Bool :=
  decide (sp.1 ≤ q ∧ q < sp.2.2)

/-- First marked boundary page, or page 1 when nothing was marked (the
fallback of line 188). -/
def firstBoundary (pages : List (List Char)) : Nat :=
  match detectedBoundaries pages with
  | [] => 1
  | x :: _ => x.1

/-- Reconstruction expression of a marker list: the text before the first
marker, then alternately each marker's own matched text and its untrimmed
content span to the next marker (the last one running to the block
end). -/
def markerDecomp (block : List Char) : Nat → List (Nat × Nat) → List Char
  | p, [] => sliceList block p block.length
  | p, (s, e) :: ms => sliceList block p s ++ sliceList block s e ++ markerDecomp block e ms

/-- Interval lookup over the consecutive pairs of the offset map, as the
attribution loop iterates them: the page of the first pair whose
interval `[offset, next offset)` contains the position. -/
def specFind (pbs : List (Nat × Nat)) (pos : Nat) : Option Nat :=
  ((pbs.zip pbs.tail).find? fun pr => decide (pr.1.2 ≤ pos ∧ pos < pr.2.2)).map
    fun pr => pr.1.1

/-- Interval lookup following the spec's words: the page whose
offset-map interval contains the offset, where each entry's interval runs
from its offset to the next entry's offset and the last entry's interval
extends to the end of the block — i.e. the last entry whose offset is at
most the position. -/
def specPageOf (pbs : List (Nat × Nat)) (pos : Nat) : Option Nat :=
  ((pbs.filter fun b => decide (b.2 ≤ pos)).getLast?).map fun b => b.1

/-- No two adjacent spaces anywhere in the list. -/
def spacesSingle : List Char → Bool
  | [] => true
  | c :: cs => (!(decide (c = ' ') && decide (cs.head? = some ' '))) && spacesSingle cs

/-!  Chunk splitter: termination and window invariants. -/

theorem chunkTextAux_isSome (text : List Char) (cs ov : Nat) (hcs : 0 < cs)
    (hov : ov < cs) :
    ∀ fuel start idx, text.length - start < fuel →
      (chunkTextAux text cs ov fuel start idx).isSome := by
  intro fuel
  induction fuel with
  | zero => intro start idx h; omega
  | succ n ih =>
    intro start idx h
    simp only [chunkTextAux]
    split_ifs with hs hmin hend hend
    · simp
    · obtain ⟨l, hl⟩ := Option.isSome_iff_exists.mp
        (ih ((start + cs) ⊓ text.length - ov) (idx + 1) (by omega))
      rw [hl]
      rfl
    · simp
    · exact ih ((start + cs) ⊓ text.length - ov) idx (by omega)
    · simp

/-- C7: for `chunk_size > 0` and `overlap < chunk_size` the loop of
`chunk_text` finishes within `len(text) + 1` iterations, since the window
start strictly increases on every iteration that does not reach the end
of the content. -/
theorem chunk_text_terminates (text : List Char) (cs ov : Nat) (hcs : 0 < cs)
    (hov : ov < cs) :
    (chunkTextAux text cs ov (text.length + 1) 0 0).isSome :=
  chunkTextAux_isSome text cs ov hcs hov (text.length + 1) 0 0 (by omega)

/-- Witness for C7 at a concrete input. -/
theorem chunk_text_terminates_witness :
    0 < 60 ∧ 10 < 60 ∧ (chunkTextAux "abc".data 60 10 ("abc".data.length + 1) 0 0).isSome :=
  ⟨by decide, by decide, chunk_text_terminates "abc".data 60 10 (by decide) (by decide)⟩

theorem chunkTextAux_window (text : List Char) (cs ov : Nat) (hcs : 0 < cs)
    (hov : ov < cs) :
    ∀ fuel start idx l, chunkTextAux text cs ov fuel start idx = some l →
      (∀ c ∈ l, start ≤ c.2.1 ∧ c.2.2.1 = min (c.2.1 + cs) text.length ∧
        c.2.1 < text.length ∧ c.2.2.2 = pyStrip (sliceList text c.2.1 c.2.2.1) ∧
        MIN_CHUNK_LENGTH ≤ c.2.2.2.length) ∧
      l.Pairwise (fun a b => a.2.1 ≤ b.2.1) := by
  intro fuel
  induction fuel with
  | zero => intro start idx l h; simp [chunkTextAux] at h
  | succ n ih =>
    intro start idx l h
    simp only [chunkTextAux] at h
    split_ifs at h with hs hmin hend hend
    · cases Option.some_inj.mp h
      constructor
      · intro c hc
        rw [List.mem_singleton] at hc
        subst hc
        exact ⟨le_rfl, rfl, hs, rfl, hmin⟩
      · simp
    · rw [Option.map_eq_some'] at h
      obtain ⟨l2, hl2, rfl⟩ := h
      obtain ⟨hmem, hpw⟩ := ih _ _ _ hl2
      constructor
      · intro c hc
        rcases List.mem_cons.mp hc with rfl | hc2
        · exact ⟨le_rfl, rfl, hs, rfl, hmin⟩
        · obtain ⟨h1, h2, h3, h4, h5⟩ := hmem c hc2
          exact ⟨by omega, h2, h3, h4, h5⟩
      · refine List.pairwise_cons.mpr ⟨fun b hb => ?_, hpw⟩
        have := (hmem b hb).1
        show start ≤ b.2.1
        omega
    · cases Option.some_inj.mp h
      simp
    · obtain ⟨hmem, hpw⟩ := ih _ _ _ h
      refine ⟨fun c hc => ?_, hpw⟩
      obtain ⟨h1, h2, h3, h4, h5⟩ := hmem c hc
      exact ⟨by omega, h2, h3, h4, h5⟩
    · cases Option.some_inj.mp h
      simp

theorem pairwise_le_getLast {α : Type} (f : α → Nat) :
    ∀ (l : List α) (h : l ≠ []), l.Pairwise (fun a b => f a ≤ f b) →
      ∀ c ∈ l, f c ≤ f (l.getLast h) := by
  intro l
  induction l with
  | nil => intro h; exact absurd rfl h
  | cons a t ih =>
    intro h hpw c hc
    cases t with
    | nil =>
      rw [List.mem_singleton] at hc
      subst hc
      rfl
    | cons b t2 =>
      rw [List.getLast_cons (by simp)]
      rcases List.mem_cons.mp hc with rfl | hc2
      · exact (List.pairwise_cons.mp hpw).1 _ (List.getLast_mem (by simp))
      · exact ih (by simp) (List.pairwise_cons.mp hpw).2 c hc2

/-- C2 (amended): with `chunk_size > 0` and `overlap < chunk_size`, the
emitted `char_start`/`char_end` are monotonically non-decreasing, every
emitted text has at least `MIN_CHUNK_LENGTH` characters after trimming,
every `char_end` is at most the content length, and the last emitted
chunk's `char_end` equals the content length whenever some emitted window
reaches the content's end (a trailing window whose trimmed text is below
the threshold is skipped, leaving the last emitted `char_end` short of
the length). -/
theorem chunk_text_window_bounds (text : List Char) (cs ov : Nat) (hcs : 0 < cs)
    (hov : ov < cs) :
    (chunk_text text cs ov).Pairwise (fun a b => a.2.1 ≤ b.2.1 ∧ a.2.2.1 ≤ b.2.2.1) ∧
    (∀ c ∈ chunk_text text cs ov,
      MIN_CHUNK_LENGTH ≤ c.2.2.2.length ∧ c.2.2.1 ≤ text.length) ∧
    ∀ h : chunk_text text cs ov ≠ [],
      (∃ c ∈ chunk_text text cs ov, c.2.2.1 = text.length) →
        ((chunk_text text cs ov).getLast h).2.2.1 = text.length := by
  obtain ⟨l, hl⟩ := Option.isSome_iff_exists.mp
    (chunkTextAux_isSome text cs ov hcs hov (text.length + 1) 0 0 (by omega))
  have hct : chunk_text text cs ov = l := by rw [chunk_text, hl]; rfl
  obtain ⟨hmem, hpw⟩ := chunkTextAux_window text cs ov hcs hov _ 0 0 l hl
  rw [hct]
  have hpw2 : l.Pairwise (fun a b => a.2.1 ≤ b.2.1 ∧ a.2.2.1 ≤ b.2.2.1) := by
    refine hpw.imp_of_mem ?_
    intro a b ha hb hab
    refine ⟨hab, ?_⟩
    rw [(hmem a ha).2.1, (hmem b hb).2.1]
    omega
  refine ⟨hpw2, fun c hc => ⟨(hmem c hc).2.2.2.2, by rw [(hmem c hc).2.1]; omega⟩, ?_⟩
  intro h hex
  obtain ⟨c, hc, hce⟩ := hex
  have hlast : c.2.2.1 ≤ (l.getLast h).2.2.1 :=
    pairwise_le_getLast (fun x => x.2.2.1) l h (hpw2.imp fun hab => hab.2) c hc
  have hle : (l.getLast h).2.2.1 ≤ text.length := by
    rw [(hmem _ (List.getLast_mem h)).2.1]
    omega
  omega

/-- Witness for C2 (amended) at a concrete input. -/
theorem chunk_text_window_bounds_witness :
    (chunk_text (List.replicate 60 'a') 60 10).Pairwise
      (fun a b => a.2.1 ≤ b.2.1 ∧ a.2.2.1 ≤ b.2.2.1) ∧
    (∀ c ∈ chunk_text (List.replicate 60 'a') 60 10,
      MIN_CHUNK_LENGTH ≤ c.2.2.2.length ∧ c.2.2.1 ≤ (List.replicate 60 'a').length) ∧
    ∀ h : chunk_text (List.replicate 60 'a') 60 10 ≠ [],
      (∃ c ∈ chunk_text (List.replicate 60 'a') 60 10,
        c.2.2.1 = (List.replicate 60 'a').length) →
        ((chunk_text (List.replicate 60 'a') 60 10).getLast h).2.2.1 =
          (List.replicate 60 'a').length :=
  chunk_text_window_bounds (List.replicate 60 'a') 60 10 (by decide) (by decide)

theorem chunk_text_nil_of_short_windows (text : List Char) (cs ov : Nat)
    (hcs : 0 < cs) (hov : ov < cs)
    (hshort : ∀ a b, (pyStrip (sliceList text a b)).length < MIN_CHUNK_LENGTH) :
    chunk_text text cs ov = [] := by
  obtain ⟨l, hl⟩ := Option.isSome_iff_exists.mp
    (chunkTextAux_isSome text cs ov hcs hov (text.length + 1) 0 0 (by omega))
  have hct : chunk_text text cs ov = l := by rw [chunk_text, hl]; rfl
  obtain ⟨hmem, -⟩ := chunkTextAux_window text cs ov hcs hov _ 0 0 l hl
  rw [hct]
  cases l with
  | nil => rfl
  | cons c t =>
    obtain ⟨-, -, -, h4, h5⟩ := hmem c (List.mem_cons_self c t)
    rw [h4] at h5
    exact absurd h5 (by have := hshort c.2.1 c.2.2.1; omega)

theorem sliceList_length_le (l : List Char) (a b : Nat) :
    (sliceList l a b).length ≤ l.length := by
  simp only [sliceList, List.length_drop, List.length_take]
  omega

theorem pyStrip_length_le (l : List Char) : (pyStrip l).length ≤ l.length := by
  simp only [pyStrip, List.length_reverse]
  calc (List.dropWhile isPySpace (List.dropWhile isPySpace l).reverse).length
      ≤ (List.dropWhile isPySpace l).reverse.length :=
        (List.dropWhile_sublist _).length_le
    _ = (List.dropWhile isPySpace l).length := List.length_reverse _
    _ ≤ l.length := (List.dropWhile_sublist _).length_le

theorem chunk_text_nil_of_short (text : List Char) (cs ov : Nat)
    (hcs : 0 < cs) (hov : ov < cs) (hshort : text.length < MIN_CHUNK_LENGTH) :
    chunk_text text cs ov = [] := by
  refine chunk_text_nil_of_short_windows text cs ov hcs hov fun a b => ?_
  have h1 := pyStrip_length_le (sliceList text a b)
  have h2 := sliceList_length_le text a b
  omega

/-- C10: a section whose content admits no window with trimmed length at
least `MIN_CHUNK_LENGTH` — in particular any content shorter than 50
characters, and any empty content — produces zero chunks, and rows made
only of such sections produce an empty record list even for non-empty
input. -/
theorem short_sections_produce_no_records :
    (∀ text cs ov, 0 < cs → ov < cs →
      (∀ a b, (pyStrip (sliceList text a b)).length < MIN_CHUNK_LENGTH) →
      chunk_text text cs ov = []) ∧
    (∀ text cs ov, 0 < cs → ov < cs → text.length < MIN_CHUNK_LENGTH →
      chunk_text text cs ov = []) ∧
    (∀ rows cs ov gen, 0 < cs → ov < cs →
      (∀ r ∈ rows, r.content.length < MIN_CHUNK_LENGTH) →
      df_to_chunks_list rows cs ov gen = []) := by
  refine ⟨chunk_text_nil_of_short_windows, chunk_text_nil_of_short, ?_⟩
  intro rows cs ov gen hcs hov hshort
  rw [df_to_chunks_list]
  generalize 0 = k
  induction rows generalizing k with
  | nil => rfl
  | cons r rs ih =>
    rw [dfGo, chunk_text_nil_of_short r.content cs ov hcs hov
      (hshort r (List.mem_cons_self r rs))]
    exact ih (fun x hx => hshort x (List.mem_cons_of_mem r hx)) _

/-- Witness for C10: a single non-empty row whose content is shorter than
the threshold yields an empty record sequence. -/
theorem short_sections_produce_no_records_witness :
    df_to_chunks_list [⟨none, [], [], 1, 1, "short".data⟩] 900 200 (fun _ => []) = [] :=
  short_sections_produce_no_records.2.2 [⟨none, [], [], 1, 1, "short".data⟩] 900 200
    (fun _ => []) (by decide) (by decide) (by decide)

theorem dfGo_map_recordFields (cs ov : Nat) (g1 g2 : Nat → List Char) :
    ∀ rows k1 k2, (dfGo cs ov g1 rows k1).map recordFields =
      (dfGo cs ov g2 rows k2).map recordFields := by
  intro rows
  induction rows with
  | nil => intro k1 k2; rfl
  | cons r rs ih =>
    intro k1 k2
    simp only [dfGo, List.map_append, List.map_map]
    exact congrArg₂ _ rfl (ih _ _)

theorem dfGo_map_id (cs ov : Nat) (g : Nat → List Char) :
    ∀ rows k, (dfGo cs ov g rows k).map Record.id =
      (List.range' k (dfGo cs ov g rows k).length).map g := by
  intro rows
  induction rows with
  | nil => intro k; rfl
  | cons r rs ih =>
    intro k
    simp only [dfGo, List.map_append, List.map_map, List.length_append, List.length_map]
    have h1 : ((chunk_text r.content cs ov).enum.map
        (Record.id ∘ fun ic => buildRecord r (g (k + ic.1)) ic.2)) =
        (List.range' k (chunk_text r.content cs ov).length).map g := by
      have h2 : (Record.id ∘ fun ic : Nat × Nat × Nat × Nat × List Char =>
          buildRecord r (g (k + ic.1)) ic.2) =
          (fun i => g (k + i)) ∘ Prod.fst := rfl
      rw [h2, ← List.map_map, List.enum_map_fst, List.range'_eq_map_range,
        List.map_map]
      rfl
    rw [h1, ih, ← List.map_append, List.range'_append_1, Nat.add_comm]
    simp [List.enum_length]

/-- C9: two runs over the same rows and configuration produce record
sequences identical in every field except the identifier; the identifier
sequence is exactly the identifier supply read off positionally (it does
not depend on any content), so supplies that differ at every consumed
index give records that differ in their identifier at every position. -/
theorem records_equal_except_id (rows : List SectionRow) (cs ov : Nat)
    (g1 g2 : Nat → List Char) :
    (df_to_chunks_list rows cs ov g1).map recordFields =
      (df_to_chunks_list rows cs ov g2).map recordFields ∧
    (df_to_chunks_list rows cs ov g1).map Record.id =
      (List.range (df_to_chunks_list rows cs ov g1).length).map g1 ∧
    ∀ i, i < (df_to_chunks_list rows cs ov g1).length → g1 i ≠ g2 i →
      ((df_to_chunks_list rows cs ov g1).map Record.id).get? i ≠
        ((df_to_chunks_list rows cs ov g2).map Record.id).get? i := by
  have hids1 : (df_to_chunks_list rows cs ov g1).map Record.id =
      (List.range (df_to_chunks_list rows cs ov g1).length).map g1 := by
    rw [List.range_eq_range']
    exact dfGo_map_id cs ov g1 rows 0
  have hids2 : (df_to_chunks_list rows cs ov g2).map Record.id =
      (List.range (df_to_chunks_list rows cs ov g2).length).map g2 := by
    rw [List.range_eq_range']
    exact dfGo_map_id cs ov g2 rows 0
  have hflds : (df_to_chunks_list rows cs ov g1).map recordFields =
      (df_to_chunks_list rows cs ov g2).map recordFields :=
    dfGo_map_recordFields cs ov g1 g2 rows 0 0
  have hlen : (df_to_chunks_list rows cs ov g1).length =
      (df_to_chunks_list rows cs ov g2).length := by
    have := congrArg List.length hflds
    simpa using this
  refine ⟨hflds, hids1, fun i hi hg => ?_⟩
  rw [hids1, hids2, ← hlen]
  rw [List.get?_map, List.get?_map, List.get?_range hi]
  simpa using hg

/-- Witness for C9 at a concrete input: one row with 60 characters of
content yields one record per run, and supplies disagreeing at index 0
give different identifiers there. -/
theorem records_equal_except_id_witness :
    ((df_to_chunks_list [⟨none, [], [], 1, 1, List.replicate 60 'a'⟩] 900 200
        (fun _ => "a".data)).map Record.id).get? 0 ≠
      ((df_to_chunks_list [⟨none, [], [], 1, 1, List.replicate 60 'a'⟩] 900 200
        (fun _ => "b".data)).map Record.id).get? 0 :=
  (records_equal_except_id [⟨none, [], [], 1, 1, List.replicate 60 'a'⟩] 900 200
    (fun _ => "a".data) (fun _ => "b".data)).2.2 0 (by decide) (by decide)

/-!  Document spans: ordering of the detected boundaries and the span
partition. -/

theorem detectGo_mem : ∀ (ts : List (List Char)) (i : Nat) (x : Nat × List Char),
    x ∈ detectGo i ts → i ≤ x.1 ∧ x.1 < i + ts.length := by
  intro ts
  induction ts with
  | nil => intro i x h; simp [detectGo] at h
  | cons t ts ih =>
    intro i x h
    simp only [detectGo] at h
    split at h
    · split at h
      · rcases List.mem_cons.mp h with rfl | h2
        · simp
        · have := ih (i + 1) x h2
          simp only [List.length_cons]
          omega
      · have := ih (i + 1) x h
        simp only [List.length_cons]
        omega
    · have := ih (i + 1) x h
      simp only [List.length_cons]
      omega

theorem detectGo_chain : ∀ (ts : List (List Char)) (i : Nat),
    List.Chain' (fun a b => a.1 < b.1) (detectGo i ts) := by
  intro ts
  induction ts with
  | nil => intro i; simp [detectGo]
  | cons t ts ih =>
    intro i
    simp only [detectGo]
    split
    · split
      · rw [List.chain'_cons']
        refine ⟨fun y hy => ?_, ih (i + 1)⟩
        have hmem : y ∈ detectGo (i + 1) ts := List.mem_of_mem_head? hy
        have := detectGo_mem ts (i + 1) y hmem
        show i < y.1
        omega
      · exact ih (i + 1)
    · exact ih (i + 1)

theorem getLastD_irrel :
    ∀ (l : List (Nat × Option (List Char))) (y d1 d2 : Nat × Option (List Char)),
      (y :: l).getLastD d1 = (y :: l).getLastD d2 := by
  intro l y d1 d2
  rw [List.getLastD_eq_getLast?, List.getLastD_eq_getLast?,
    List.getLast?_eq_getLast (y :: l) (by simp)]
  rfl

theorem chain'_fst_le_getLastD :
    ∀ (l : List (Nat × Option (List Char))) (y d : Nat × Option (List Char)),
      List.Chain' (fun a b => a.1 ≤ b.1) (y :: l) →
      y.1 ≤ ((y :: l).getLastD d).1 := by
  intro l
  induction l with
  | nil => intro y d _; exact le_rfl
  | cons z l2 ih =>
    intro y d h
    rw [List.getLastD_cons, getLastD_irrel l2 z y d]
    exact le_trans (List.chain'_cons.mp h).1 (ih z d (List.chain'_cons.mp h).2)

theorem countP_consecutive :
    ∀ (rest : List (Nat × Option (List Char))) (x : Nat × Option (List Char)) (q : Nat),
      List.Chain' (fun a b => a.1 ≤ b.1) (x :: rest) →
      (((x :: rest).zip rest).map (fun z => (z.1.1, z.1.2, z.2.1))).countP (inSpan q) =
        if x.1 ≤ q ∧ q < ((x :: rest).getLastD x).1 then 1 else 0 := by
  intro rest
  induction rest with
  | nil =>
    intro x q _
    simp only [List.zip_nil_right, List.map_nil, List.countP_nil]
    have hx1 : ([x] : List (Nat × Option (List Char))).getLastD x = x := rfl
    rw [hx1, if_neg (by omega)]
  | cons y rs ih =>
    intro x q hch
    rw [List.zip_cons_cons, List.map_cons, List.countP_cons,
      ih y q (List.chain'_cons.mp hch).2]
    have hxy : x.1 ≤ y.1 := (List.chain'_cons.mp hch).1
    have hyl : y.1 ≤ ((y :: rs).getLastD y).1 :=
      chain'_fst_le_getLastD rs y y (List.chain'_cons.mp hch).2
    have hx : (x :: y :: rs).getLastD x = (y :: rs).getLastD y := by
      rw [List.getLastD_cons]
      exact getLastD_irrel rs y x y
    rw [hx]
    simp only [inSpan, decide_eq_true_eq]
    split_ifs <;> omega

/-- C1 (amended): the document spans are consecutive and cover exactly
the page interval from the first marked boundary (page 1 when no page is
marked) to the last page: every page ordinal in that interval lies in
exactly one span, and ordinals outside it — in particular pages before
the first detected boundary — lie in none. -/
theorem spans_partition (pages : List (List Char)) (q : Nat) :
    (spansOf pages).countP (inSpan q) =
      if firstBoundary pages ≤ q ∧ q ≤ pages.length then 1 else 0 := by
  rw [spansOf]
  cases hdet : detectedBoundaries pages with
  | nil =>
    have hpd : pageDocsOf pages = [(1, none), (pages.length + 1, none)] := by
      rw [pageDocsOf, hdet]
      simp
    have hfb : firstBoundary pages = 1 := by rw [firstBoundary, hdet]
    rw [hpd, hfb]
    have hch : List.Chain' (fun a b2 => a.1 ≤ b2.1)
        [((1 : Nat), (none : Option (List Char))), (pages.length + 1, none)] :=
      List.chain'_cons.mpr ⟨by omega, List.chain'_singleton _⟩
    have h := countP_consecutive [(pages.length + 1, none)] (1, none) q hch
    have hgl : ([((1 : Nat), (none : Option (List Char))),
        (pages.length + 1, none)]).getLastD (1, none) = (pages.length + 1, none) := rfl
    rw [hgl] at h
    rw [show ([((1 : Nat), (none : Option (List Char))),
      (pages.length + 1, none)]).tail = [(pages.length + 1, none)] from rfl]
    rw [h]
    exact if_congr (by omega) rfl rfl
  | cons b bs =>
    have hfb : firstBoundary pages = b.1 := by rw [firstBoundary, hdet]
    have hpd : pageDocsOf pages =
        (b.1, some b.2) :: ((bs.map fun z => (z.1, some z.2)) ++ [(pages.length + 1, none)]) := by
      rw [pageDocsOf, hdet]
      simp
    have hdet2 : detectGo 1 pages = b :: bs := hdet
    have hlt : List.Chain' (fun a b2 => a.1 < b2.1) (b :: bs) := by
      have h0 := detectGo_chain pages 1
      rw [hdet2] at h0
      exact h0
    have hmap : List.Chain' (fun a b2 => a.1 < b2.1)
        ((b.1, some b.2) :: bs.map fun z => (z.1, some z.2)) := by
      have h1 : List.Chain' (fun a b2 => a.1 < b2.1)
          (List.map (fun z : Nat × List Char =>
            ((z.1, some z.2) : Nat × Option (List Char))) (b :: bs)) :=
        (List.chain'_map _).mpr hlt
      simpa using h1
    have hchain : List.Chain' (fun a b2 => a.1 ≤ b2.1)
        ((b.1, some b.2) :: ((bs.map fun z => (z.1, some z.2)) ++ [(pages.length + 1, none)])) := by
      rw [show (b.1, some b.2) :: ((bs.map fun z => (z.1, some z.2)) ++
        [(pages.length + 1, none)])
        = ((b.1, some b.2) :: bs.map fun z => (z.1, some z.2)) ++
          [(pages.length + 1, none)] from rfl]
      rw [List.chain'_append]
      refine ⟨hmap.imp fun a c h => le_of_lt h, List.chain'_singleton _, ?_⟩
      intro z hz w hw
      simp only [List.head?_cons, Option.mem_def, Option.some.injEq] at hw
      subst hw
      have hzmem : z ∈ (b.1, some b.2) :: bs.map fun z2 => (z2.1, some z2.2) :=
        List.mem_of_mem_getLast? hz
      rcases List.mem_cons.mp hzmem with rfl | hzm
      · have := detectGo_mem pages 1 b (by rw [hdet2]; exact List.mem_cons_self _ _)
        show b.1 ≤ pages.length + 1
        omega
      · obtain ⟨z0, hz0, rfl⟩ := List.mem_map.mp hzm
        have := detectGo_mem pages 1 z0 (by rw [hdet2]; exact List.mem_cons_of_mem _ hz0)
        show z0.1 ≤ pages.length + 1
        omega
    rw [hpd, hfb]
    have h := countP_consecutive
      ((bs.map fun z => (z.1, some z.2)) ++ [(pages.length + 1, none)]) (b.1, some b.2) q hchain
    have hgl : ((b.1, some b.2) :: ((bs.map fun z => (z.1, some z.2)) ++
        [(pages.length + 1, none)])).getLastD (b.1, some b.2) = (pages.length + 1, none) := by
      rw [List.getLastD_cons]
      exact List.getLastD_concat _ _ _
    rw [hgl] at h
    rw [show ((b.1, some b.2) :: ((bs.map fun z => (z.1, some z.2)) ++
      [(pages.length + 1, none)])).tail
      = (bs.map fun z => (z.1, some z.2)) ++ [(pages.length + 1, none)] from rfl]
    rw [h]
    exact if_congr (by omega) rfl rfl

/-- Witness for C1 (amended) at a concrete input. -/
theorem spans_partition_witness :
    (spansOf ["intro text".data, "REGULAMENTO Ponto Ton\n1. Objetivo".data]).countP (inSpan 2) =
      if firstBoundary ["intro text".data, "REGULAMENTO Ponto Ton\n1. Objetivo".data] ≤ 2 ∧
          2 ≤ (["intro text".data, "REGULAMENTO Ponto Ton\n1. Objetivo".data] :
            List (List Char)).length then 1 else 0 :=
  spans_partition ["intro text".data, "REGULAMENTO Ponto Ton\n1. Objetivo".data] 2

/-- Counterexample to C1 as stated: when the first detected boundary is
page 2, page 1 of the 2-page input lies in no span, so the spans do not
cover `[1, N]`. -/
theorem spans_partition_cex :
    (["intro text".data, "REGULAMENTO Ponto Ton\n1. Objetivo".data] :
      List (List Char)).length = 2 ∧
    (spansOf ["intro text".data, "REGULAMENTO Ponto Ton\n1. Objetivo".data]).countP
      (inSpan 1) = 0 := by
  exact ⟨by decide, by decide⟩

/-!  Error handling of the normalizer wrapper. -/

/-- C6 (amended): when a step of the try-block fails after the earlier
steps succeeded, the except handler returns the text as reassigned by the
completed steps — the original input only when no transforming step
preceded the failing one. -/
theorem runSteps_failure :
    ∀ (fs : List (List Char → Option (List Char))) (f : List Char → Option (List Char))
      (gs : List (List Char → Option (List Char))) (t u : List Char),
      runStepsAll fs t = some u → f u = none →
      runSteps (fs ++ f :: gs) t = u := by
  intro fs
  induction fs with
  | nil =>
    intro f gs t u h1 h2
    cases Option.some_inj.mp h1
    rw [List.nil_append, runSteps, h2]
  | cons g fs2 ih =>
    intro f gs t u h1 h2
    rw [runStepsAll] at h1
    cases hg : g t with
    | none => rw [hg] at h1; simp at h1
    | some t1 =>
      rw [hg, Option.some_bind] at h1
      rw [List.cons_append, runSteps, hg]
      exact ih f gs t1 u h1 h2

/-- Witness for C6 (amended): the invisible-character step succeeds and
transforms the text, the next step fails, and the handler returns the
transformed intermediate. -/
theorem runSteps_failure_witness :
    runSteps [fun t => some (cleanStep1 t), fun _ => none] [' ', 'a'] = [' ', 'a'] :=
  runSteps_failure [fun t => some (cleanStep1 t)] (fun _ => none) [] [' ', 'a']
    [' ', 'a'] (by decide) rfl

/-- Counterexample to C6 as stated: with the first transforming step
succeeding and the second failing, the handler returns the transformed
text `" a"`, which differs from the original argument `"\xa0a"`. -/
theorem runSteps_failure_cex :
    runSteps [fun t => some (cleanStep1 t), fun _ => none] [' ', 'a'] = [' ', 'a'] ∧
    ([' ', 'a'] : List Char) ≠ [' ', 'a'] := by
  exact ⟨by decide, by decide⟩

/-!  Boundary detection characterization. -/

theorem detectGo_mem_iff :
    ∀ (ts : List (List Char)) (i0 i : Nat) (n : List Char),
      (i, n) ∈ detectGo i0 ts ↔
        (i0 ≤ i ∧ ∃ t, ts.get? (i - i0) = some t ∧ foundDoc t = some n ∧
          hasSectionRestart t = true) := by
  intro ts
  induction ts with
  | nil => intro i0 i n; simp [detectGo]
  | cons t ts2 ih =>
    intro i0 i n
    simp only [detectGo]
    split
    · rename_i name hfd
      split
      · rename_i hr
        constructor
        · intro h
          rcases List.mem_cons.mp h with heq | h2
          · injection heq with hA hB
            subst hA
            subst hB
            refine ⟨le_rfl, t, by simp, hfd, hr⟩
          · obtain ⟨h1, t2, hget, hfd2, hr2⟩ := (ih (i0 + 1) i n).mp h2
            refine ⟨by omega, t2, ?_, hfd2, hr2⟩
            rw [show i - i0 = (i - (i0 + 1)) + 1 from by omega, List.get?_cons_succ]
            exact hget
        · rintro ⟨h1, t2, hget, hfd2, hr2⟩
          by_cases hii : i = i0
          · subst hii
            rw [Nat.sub_self, List.get?_cons_zero] at hget
            cases Option.some_inj.mp hget
            apply List.mem_cons.mpr
            left
            have hnn : n = name := Option.some_inj.mp (hfd2.symm.trans hfd)
            rw [hnn]
          · apply List.mem_cons.mpr
            right
            apply (ih (i0 + 1) i n).mpr
            refine ⟨by omega, t2, ?_, hfd2, hr2⟩
            rw [show i - i0 = (i - (i0 + 1)) + 1 from by omega, List.get?_cons_succ] at hget
            exact hget
      · rename_i hr
        rw [ih (i0 + 1) i n]
        constructor
        · rintro ⟨h1, t2, hget, hfd2, hr2⟩
          refine ⟨by omega, t2, ?_, hfd2, hr2⟩
          rw [show i - i0 = (i - (i0 + 1)) + 1 from by omega, List.get?_cons_succ]
          exact hget
        · rintro ⟨h1, t2, hget, hfd2, hr2⟩
          by_cases hii : i = i0
          · subst hii
            rw [Nat.sub_self, List.get?_cons_zero] at hget
            cases Option.some_inj.mp hget
            exact absurd hr2 hr
          · refine ⟨by omega, t2, ?_, hfd2, hr2⟩
            rw [show i - i0 = (i - (i0 + 1)) + 1 from by omega, List.get?_cons_succ] at hget
            exact hget
    · rename_i hfd
      rw [ih (i0 + 1) i n]
      constructor
      · rintro ⟨h1, t2, hget, hfd2, hr2⟩
        refine ⟨by omega, t2, ?_, hfd2, hr2⟩
        rw [show i - i0 = (i - (i0 + 1)) + 1 from by omega, List.get?_cons_succ]
        exact hget
      · rintro ⟨h1, t2, hget, hfd2, hr2⟩
        by_cases hii : i = i0
        · subst hii
          rw [Nat.sub_self, List.get?_cons_zero] at hget
          cases Option.some_inj.mp hget
          rw [hfd] at hfd2
          cases hfd2
        · refine ⟨by omega, t2, ?_, hfd2, hr2⟩
          rw [show i - i0 = (i - (i0 + 1)) + 1 from by omega, List.get?_cons_succ] at hget
          exact hget

/-- C3: a page is marked as a document boundary exactly when both hold:
some configured regulation pattern — "REGULAMENTO", whitespace-tolerant,
then the name's suffix, case-insensitively — matches within the first 400
characters of the cleaned page text, and the full cleaned page text
contains a start-of-line "1." (after optional leading whitespace) not
followed by another digit. -/
theorem boundary_marked_iff (pages : List (List Char)) (i : Nat) :
    (∃ n, (i, n) ∈ detectedBoundaries pages) ↔
      (1 ≤ i ∧ ∃ t, pages.get? (i - 1) = some t ∧
        (∃ name ∈ VALID_REGULATIONS, searchDocPat (docSuffix name) (headerZone t) = true) ∧
        hasSectionRestart t = true) := by
  constructor
  · rintro ⟨n, hn⟩
    obtain ⟨h1, t, hget, hfd, hr⟩ := (detectGo_mem_iff pages 1 i n).mp hn
    refine ⟨h1, t, hget, ?_, hr⟩
    have hsome : (VALID_REGULATIONS.find? fun name =>
        searchDocPat (docSuffix name) (headerZone t)).isSome := by
      rw [show (VALID_REGULATIONS.find? fun name =>
        searchDocPat (docSuffix name) (headerZone t)) = foundDoc t from rfl, hfd]
      rfl
    obtain ⟨name, hmem, hp⟩ := List.find?_isSome.mp hsome
    exact ⟨name, hmem, hp⟩
  · rintro ⟨h1, t, hget, ⟨name, hmem, hp⟩, hr⟩
    have hsome : (foundDoc t).isSome := by
      rw [show foundDoc t = VALID_REGULATIONS.find? fun name2 =>
        searchDocPat (docSuffix name2) (headerZone t) from rfl]
      exact List.find?_isSome.mpr ⟨name, hmem, hp⟩
    obtain ⟨n, hn⟩ := Option.isSome_iff_exists.mp hsome
    exact ⟨n, (detectGo_mem_iff pages 1 i n).mpr ⟨h1, t, hget, hn, hr⟩⟩

/-!  Section markers: bounds of the matches and reconstruction of the
block from the marker decomposition. -/

theorem ddCheck_bounds : ∀ (cs : List Char) (k : Nat), ddCheck cs = some k →
    2 ≤ k ∧ k ≤ cs.length := by
  intro cs k h
  cases cs with
  | nil => simp [ddCheck] at h
  | cons a cs1 =>
    cases cs1 with
    | nil => simp [ddCheck] at h
    | cons b rest =>
      simp only [ddCheck] at h
      split_ifs at h with h1 h2 h3
      · split at h
        · split_ifs at h with h4
          cases Option.some_inj.mp h
          exact ⟨by omega, by simp only [List.length_cons]; omega⟩
        · cases h
      · cases Option.some_inj.mp h
        exact ⟨le_rfl, by simp only [List.length_cons]; omega⟩

theorem wsDigitsDot_bounds : ∀ (cs : List Char) (k : Nat), wsDigitsDot cs = some k →
    2 ≤ k ∧ k ≤ cs.length := by
  intro cs
  induction cs with
  | nil => intro k h; simp [wsDigitsDot] at h
  | cons c cs1 ih =>
    intro k h
    simp only [wsDigitsDot] at h
    split at h
    next x k2 heq =>
      cases Option.some_inj.mp h
      exact ddCheck_bounds (c :: cs1) _ heq
    next x heq =>
      split_ifs at h with hws
      rw [Option.map_eq_some'] at h
      obtain ⟨k2, hk2, rfl⟩ := h
      have := ih k2 hk2
      exact ⟨by omega, by simp only [List.length_cons]; omega⟩

theorem tryMarker_bounds (block : List Char) (p e : Nat) (h : tryMarker block p = some e) :
    p + 2 ≤ e ∧ e ≤ block.length := by
  rw [tryMarker] at h
  split_ifs at h with hls
  rw [Option.map_eq_some'] at h
  obtain ⟨k, hk, rfl⟩ := h
  have hb := wsDigitsDot_bounds (block.drop p) k hk
  rw [List.length_drop] at hb
  exact ⟨by omega, by omega⟩

theorem sliceList_self (block : List Char) (p : Nat) :
    sliceList block p block.length = block.drop p := by
  rw [sliceList, List.take_length]

theorem sliceList_empty (block : List Char) (p : Nat) : sliceList block p p = [] := by
  rw [sliceList]
  apply List.drop_eq_nil_of_le
  simp

theorem sliceList_append_drop (block : List Char) (p e : Nat) (hpe : p ≤ e)
    (hel : e ≤ block.length) :
    sliceList block p e ++ block.drop e = block.drop p := by
  rw [sliceList]
  conv_rhs => rw [show block = block.take e ++ block.drop e from
    (List.take_append_drop e block).symm]
  rw [List.drop_append_of_le_length (by simp; omega)]

theorem scanGo_decomp (block : List Char) :
    ∀ (fuel p q : Nat), q ≤ p → p ≤ block.length →
      markerDecomp block q (scanGo block fuel p) = block.drop q := by
  intro fuel
  induction fuel with
  | zero =>
    intro p q hqp hpl
    rw [scanGo, markerDecomp, sliceList_self]
  | succ n ih =>
    intro p q hqp hpl
    rw [scanGo]
    split_ifs with hp
    · cases htm : tryMarker block p with
      | some e =>
        have hb := tryMarker_bounds block p e htm
        rw [markerDecomp]
        rw [show max e (p + 1) = e from by omega]
        rw [ih e e le_rfl (by omega)]
        rw [List.append_assoc]
        rw [sliceList_append_drop block p e (by omega) (by omega)]
        rw [sliceList_append_drop block q p hqp hpl]
      | none =>
        exact ih (p + 1) q (by omega) (by omega)
    · rw [markerDecomp, sliceList_self]

theorem sectionRowsGo_length (block : List Char) (dn : Option (List Char))
    (pbs : List (Nat × Nat)) (sp np : Nat) :
    ∀ ms, (sectionRowsGo block dn pbs sp np ms).length = ms.length := by
  intro ms
  induction ms with
  | nil => rfl
  | cons m ms2 ih =>
    obtain ⟨s, e⟩ := m
    cases ms2 with
    | nil => rfl
    | cons m2 ms3 =>
      obtain ⟨s2, e2⟩ := m2
      simp only [sectionRowsGo, List.length_cons]
      rw [ih]
      simp

/-- C4 (amended): a text block with `k ≥ 1` section markers yields
exactly `k` section rows, and the block is reconstructed exactly by
concatenating the text before the first marker and, for each marker in
order, the marker's own matched text followed by its untrimmed content
span running to the next marker's start (the block end for the last
one).  Concatenating the content spans alone drops the marker texts and
the prefix. -/
theorem sections_count_and_reconstruction (block : List Char) (dn : Option (List Char))
    (pbs : List (Nat × Nat)) (sp np : Nat) (h : scanMarkers block ≠ []) :
    (sectionsOfBlock block dn pbs sp np).length = (scanMarkers block).length ∧
    markerDecomp block 0 (scanMarkers block) = block := by
  constructor
  · rw [sectionsOfBlock, if_neg h]
    exact sectionRowsGo_length block dn pbs sp np (scanMarkers block)
  · have h2 := scanGo_decomp block (block.length + 1) 0 0 le_rfl (by omega)
    rwa [List.drop_zero] at h2

/-- Witness for C4 (amended) at a concrete block with two markers. -/
theorem sections_count_and_reconstruction_witness :
    (sectionsOfBlock "1. A\n2. B".data none [] 1 1).length =
      (scanMarkers "1. A\n2. B".data).length ∧
    markerDecomp "1. A\n2. B".data 0 (scanMarkers "1. A\n2. B".data) = "1. A\n2. B".data :=
  sections_count_and_reconstruction "1. A\n2. B".data none [] 1 1 (by decide)

/-- Counterexample to C4 as stated: the block `"1. A\n2. B"` has two
markers, but the concatenation of the two untrimmed content spans is
`" A\n B"`, not the original block — the marker texts `"1."`/`"2."` and
the prefix are not part of any content span. -/
theorem sections_reconstruction_cex :
    (scanMarkers "1. A\n2. B".data).length = 2 ∧
    (contentSpans "1. A\n2. B".data).flatten ≠ "1. A\n2. B".data :=
  ⟨by decide, by decide⟩

/-!  Page attribution: the loop of lines 238-243 against the spec's
interval lookup. -/

theorem chain'_snd_lt_of_mem :
    ∀ (l : List (Nat × Nat)) (y : Nat × Nat),
      List.Chain' (fun a b => a.2 < b.2) (y :: l) → ∀ z ∈ l, y.2 < z.2 := by
  intro l
  induction l with
  | nil => intro y _ z hz; cases hz
  | cons w l2 ih =>
    intro y h z hz
    rcases List.mem_cons.mp hz with rfl | hz2
    · exact (List.chain'_cons.mp h).1
    · exact lt_trans (List.chain'_cons.mp h).1 (ih w (List.chain'_cons.mp h).2 z hz2)

theorem pbGo_mem_off (pages : List (List Char)) :
    ∀ (cnt pi off : Nat) (z : Nat × Nat), z ∈ pbGo pages cnt pi off → off ≤ z.2 := by
  intro cnt
  induction cnt with
  | zero => intro pi off z hz; cases hz
  | succ n ih =>
    intro pi off z hz
    rw [pbGo] at hz
    rcases List.mem_cons.mp hz with rfl | hz2
    · exact le_rfl
    · have := ih _ _ z hz2
      omega

theorem pbGo_chain (pages : List (List Char)) :
    ∀ (cnt pi off : Nat), List.Chain' (fun a b => a.2 < b.2) (pbGo pages cnt pi off) := by
  intro cnt
  induction cnt with
  | zero => intro pi off; exact List.chain'_nil
  | succ n ih =>
    intro pi off
    rw [pbGo, List.chain'_cons']
    refine ⟨fun y hy => ?_, ih _ _⟩
    have hmem : y ∈ pbGo pages n (pi + 1)
        (off + ((pages.get? (pi - 1)).getD []).length + PAGE_SEPARATOR.length) :=
      List.mem_of_mem_head? hy
    have := pbGo_mem_off pages n (pi + 1) _ y hmem
    have hsep : PAGE_SEPARATOR.length = 2 := rfl
    show off < y.2
    omega

/-- C5 (amended): the attribution loop consults only the intervals
between consecutive offset-map entries; when such an interval contains
the offset it yields that entry's page, and otherwise — in particular for
any offset at or beyond the last entry's offset, i.e. on the span's last
page — the fallback page is used: the span's start page for `page_start`
and the span's last page for `page_end`.  The fallback therefore does
occur, for every section whose marker or content end lies on the span's
last page. -/
theorem attr_characterization :
    ∀ (pbs : List (Nat × Nat)) (sp ep fb1 fb2 : Nat),
      List.Chain' (fun a b => a.2 < b.2) pbs → sp ≤ ep →
      attrPages pbs sp ep fb1 fb2 =
        ((specFind pbs sp).getD fb1, (specFind pbs ep).getD fb2) := by
  intro pbs
  induction pbs with
  | nil => intro sp ep fb1 fb2 _ _; rfl
  | cons x rest ih =>
    intro sp ep fb1 fb2 hch hse
    cases rest with
    | nil => rfl
    | cons y rs =>
      have htail : List.Chain' (fun a b => a.2 < b.2) (y :: rs) := (List.chain'_cons.mp hch).2
      have hxy : x.2 < y.2 := (List.chain'_cons.mp hch).1
      have hge : ∀ pr ∈ (y :: rs).zip rs, y.2 ≤ pr.1.2 := by
        intro pr hpr
        obtain ⟨pr1, pr2⟩ := pr
        have h1 : pr1 ∈ y :: rs := (List.of_mem_zip hpr).1
        rcases List.mem_cons.mp h1 with rfl | h2
        · exact le_rfl
        · exact le_of_lt (chain'_snd_lt_of_mem rs y htail pr1 h2)
      have hsf : ∀ pos : Nat, specFind (x :: y :: rs) pos =
          if x.2 ≤ pos ∧ pos < y.2 then some x.1 else specFind (y :: rs) pos := by
        intro pos
        rw [specFind]
        rw [show (x :: y :: rs).zip (x :: y :: rs).tail =
          (x, y) :: ((y :: rs).zip rs) from rfl]
        by_cases hc : x.2 ≤ pos ∧ pos < y.2
        · rw [List.find?_cons_of_pos _ (by simpa using hc), if_pos hc]
          rfl
        · rw [List.find?_cons_of_neg _ (by simpa using hc), if_neg hc]
          rfl
      have hnone : ∀ pos, pos < y.2 → specFind (y :: rs) pos = none := by
        intro pos hpos
        rw [specFind]
        rw [show ((y :: rs).zip (y :: rs).tail) = (y :: rs).zip rs from rfl]
        rw [List.find?_eq_none.mpr ?_]
        · rfl
        · intro pr hpr
          simp only [decide_eq_true_eq]
          intro hcontra
          have := hge pr hpr
          omega
      show attrGo ((x, y) :: (y :: rs).zip rs) sp ep (fb1, fb2) = _
      simp only [attrGo]
      by_cases hep : x.2 ≤ ep ∧ ep < y.2
      · rw [if_pos hep, hsf ep, if_pos hep, hsf sp]
        by_cases hsp : x.2 ≤ sp ∧ sp < y.2
        · rw [if_pos hsp, if_pos hsp]
          rfl
        · rw [if_neg hsp, if_neg hsp, hnone sp (by omega)]
          rfl
      · rw [if_neg hep]
        have hrec : attrGo ((y :: rs).zip rs) sp ep
            ((if x.2 ≤ sp ∧ sp < y.2 then x.1 else fb1), fb2) =
            ((specFind (y :: rs) sp).getD (if x.2 ≤ sp ∧ sp < y.2 then x.1 else fb1),
             (specFind (y :: rs) ep).getD fb2) := ih sp ep _ fb2 htail hse
        rw [hrec, hsf ep, if_neg hep, hsf sp]
        by_cases hsp : x.2 ≤ sp ∧ sp < y.2
        · rw [if_pos hsp, if_pos hsp, hnone sp (by omega)]
          rfl
        · rw [if_neg hsp, if_neg hsp]

/-- Witness for C5 (amended) at the offset map of the counterexample
pages: the marker end offset 5 and content end offset 16 both miss the
single checked interval `[0, 3)`, so both fall back. -/
theorem attr_characterization_witness :
    attrPages [(1, 0), (2, 3)] 5 16 1 2 =
      ((specFind [(1, 0), (2, 3)] 5).getD 1, (specFind [(1, 0), (2, 3)] 16).getD 2) :=
  attr_characterization [(1, 0), (2, 3)] 5 16 1 2
    (List.chain'_cons.mpr ⟨by decide, List.chain'_singleton _⟩) (by decide)

/-- Counterexample to C5 as stated: for pages `["x", "1. abcdefghij"]`
the single section's marker ends at offset 5, which lies in page 2's
offset-map interval (the spec-side lookup returns page 2), yet the code
attributes `page_start = 1` — the fallback occurred because the loop
never checks the last page's interval. -/
theorem page_attribution_cex :
    (extract_sections_grouped ["x".data, "1. abcdefghij".data]).map
      (fun r => r.page_start) = [1] ∧
    scanMarkers "x\n\n1. abcdefghij".data = [(2, 5)] ∧
    pageBoundaries ["x".data, "1. abcdefghij".data] 1 3 = [(1, 0), (2, 3)] ∧
    specPageOf [(1, 0), (2, 3)] 5 = some 2 ∧ (2 : Nat) ≠ 1 :=
  ⟨by decide, by decide, by decide, by decide, by decide⟩

/-!  Idempotence analysis of `clean_text`.  The second application can
differ on newline runs (see the counterexample); on newline-free text the
pipeline is idempotent, which the following lemmas establish step by
step. -/

theorem mem_repl {t : List Char} {p : Char → Bool} {r : Char} {c : Char}
    (h : c ∈ t.map fun x => if p x then r else x) :
    c = r ∨ (c ∈ t ∧ p c = false) := by
  obtain ⟨x, hx, hfx⟩ := List.mem_map.mp h
  by_cases hp : p x
  · left
    rw [← hfx, if_pos hp]
  · right
    rw [← hfx, if_neg hp]
    exact ⟨hx, by simpa using hp⟩

theorem map_repl_id {p : Char → Bool} {r : Char} {t : List Char}
    (h : ∀ c ∈ t, p c = false) : (t.map fun c => if p c then r else c) = t := by
  have h2 : ∀ c ∈ t, (fun c => if p c then r else c) c = id c := by
    intro c hc
    simp [h c hc]
  rw [List.map_congr_left h2, List.map_id]

theorem cleanStep2a_id (t : List Char) : cleanStep2a t = t := by
  rw [cleanStep2a]
  have h2 : ∀ c ∈ t, (fun c => if c = '"' then '"' else c) c = id c := by
    intro c _
    by_cases hc : c = '"' <;> simp [hc]
  rw [List.map_congr_left h2, List.map_id]

theorem cleanStep2b_id (t : List Char) : cleanStep2b t = t := by
  rw [cleanStep2b]
  have h2 : ∀ c ∈ t, (fun c => if c = '\'' then '\'' else c) c = id c := by
    intro c _
    by_cases hc : c = '\'' <;> simp [hc]
  rw [List.map_congr_left h2, List.map_id]

theorem cleanStep3Go_id : ∀ (t : List Char) (prev : Option Char),
    (∀ c ∈ t, c ≠ '\n') → cleanStep3Go prev t = t := by
  intro t
  induction t with
  | nil => intro prev _; rfl
  | cons c cs ih =>
    intro prev h
    have hc : c ≠ '\n' := h c (List.mem_cons_self c cs)
    rw [cleanStep3Go, if_neg (by simp [hc])]
    rw [ih (some c) fun d hd => h d (List.mem_cons_of_mem c hd)]

theorem step4Try_none_of_noNL (cs : List Char) (h : ∀ c ∈ cs, c ≠ '\n') :
    step4Try cs = none := by
  rw [step4Try]
  have htw : cs.takeWhile (· = '\n') = [] := by
    cases cs with
    | nil => rfl
    | cons d cs2 =>
      rw [List.takeWhile_cons_of_neg]
      simp [h d (List.mem_cons_self d cs2)]
  rw [htw]
  simp

theorem cleanStep4Go_id : ∀ (fuel : Nat) (t : List Char),
    (∀ c ∈ t, c ≠ '\n') → cleanStep4Go fuel t = t := by
  intro fuel
  induction fuel with
  | zero => intro t _; rfl
  | succ n ih =>
    intro t h
    cases t with
    | nil => rfl
    | cons c cs =>
      have htail : ∀ d ∈ cs, d ≠ '\n' := fun d hd => h d (List.mem_cons_of_mem c hd)
      rw [cleanStep4Go]
      split_ifs with hl
      · rw [step4Try_none_of_noNL cs htail]
        exact congrArg (List.cons c) (ih cs htail)
      · exact congrArg (List.cons c) (ih cs htail)

theorem cleanStep6Go_id : ∀ (fuel : Nat) (t : List Char),
    (∀ c ∈ t, c ≠ '\n') → cleanStep6Go fuel t = t := by
  intro fuel
  induction fuel with
  | zero => intro t _; rfl
  | succ n ih =>
    intro t h
    cases t with
    | nil => rfl
    | cons c cs =>
      have htail : ∀ d ∈ cs, d ≠ '\n' := fun d hd => h d (List.mem_cons_of_mem c hd)
      rw [cleanStep6Go, if_neg (h c (List.mem_cons_self c cs))]
      exact congrArg (List.cons c) (ih cs htail)

theorem step7Try_none_of_noNL (cs : List Char) (h : ∀ c ∈ cs, c ≠ '\n') :
    step7Try cs = none := by
  rw [step7Try]
  split
  next r heq =>
    have hmem : '\n' ∈ cs := (List.dropWhile_sublist _).subset
      (by rw [heq]; exact List.mem_cons_self _ _)
    exact absurd rfl (h '\n' hmem)
  next => rfl

theorem cleanStep7Go_id : ∀ (fuel : Nat) (t : List Char),
    (∀ c ∈ t, c ≠ '\n') → cleanStep7Go fuel t = t := by
  intro fuel
  induction fuel with
  | zero => intro t _; rfl
  | succ n ih =>
    intro t h
    cases t with
    | nil => rfl
    | cons c cs =>
      have htail : ∀ d ∈ cs, d ≠ '\n' := fun d hd => h d (List.mem_cons_of_mem c hd)
      rw [cleanStep7Go, step7Try_none_of_noNL (c :: cs) h]
      exact congrArg (List.cons c) (ih cs htail)

theorem spacesSingle_tail {c : Char} {cs : List Char}
    (h : spacesSingle (c :: cs) = true) : spacesSingle cs = true := by
  rw [spacesSingle, Bool.and_eq_true] at h
  exact h.2

theorem spacesSingle_append_right : ∀ (l1 l2 : List Char),
    spacesSingle (l1 ++ l2) = true → spacesSingle l2 = true := by
  intro l1
  induction l1 with
  | nil => intro l2 h; simpa using h
  | cons c l1a ih => intro l2 h; exact ih l2 (spacesSingle_tail h)

theorem spacesSingle_append_left : ∀ (l1 l2 : List Char),
    spacesSingle (l1 ++ l2) = true → spacesSingle l1 = true := by
  intro l1
  induction l1 with
  | nil => intro l2 _; rfl
  | cons c l1a ih =>
    intro l2 h
    have h2 := h
    rw [List.cons_append, spacesSingle, Bool.and_eq_true] at h2
    obtain ⟨hb1, hb2⟩ := h2
    rw [spacesSingle, Bool.and_eq_true]
    refine ⟨?_, ih l2 hb2⟩
    cases l1a with
    | nil => simp
    | cons d l1b => simpa using hb1

theorem dropWhile_head?_not (p : Char → Bool) : ∀ (l : List Char) (d : Char),
    (l.dropWhile p).head? = some d → p d = false := by
  intro l
  induction l with
  | nil => intro d h; simp at h
  | cons c l2 ih =>
    intro d h
    by_cases hc : p c
    · rw [List.dropWhile_cons_of_pos hc] at h
      exact ih d h
    · rw [List.dropWhile_cons_of_neg hc] at h
      cases Option.some_inj.mp h
      simpa using hc

theorem step5Go_head? : ∀ (fuel : Nat) (l : List Char),
    (∀ d, l.head? = some d → isSpTab d = false) →
    (cleanStep5Go fuel l).head? = l.head? := by
  intro fuel l h
  cases fuel with
  | zero => rfl
  | succ n =>
    cases l with
    | nil => rfl
    | cons d l2 =>
      rw [cleanStep5Go, if_neg (by simp [h d rfl])]
      rfl

theorem step5Go_spacesSingle : ∀ (fuel : Nat) (l : List Char), l.length ≤ fuel →
    spacesSingle (cleanStep5Go fuel l) = true := by
  intro fuel
  induction fuel with
  | zero =>
    intro l hl
    have hnil : l = [] := List.length_eq_zero.mp (by omega)
    subst hnil
    rfl
  | succ n ih =>
    intro l hl
    cases l with
    | nil => rfl
    | cons c cs =>
      rw [List.length_cons] at hl
      by_cases hsp : isSpTab c
      · rw [cleanStep5Go, if_pos hsp]
        have hlen : (cs.dropWhile isSpTab).length ≤ n :=
          le_trans (List.dropWhile_sublist isSpTab).length_le (by omega)
        have hX : (cleanStep5Go n (cs.dropWhile isSpTab)).head? ≠ some ' ' := by
          rw [step5Go_head? n (cs.dropWhile isSpTab)
            (fun d hd => dropWhile_head?_not isSpTab cs d hd)]
          intro hcon
          have := dropWhile_head?_not isSpTab cs ' ' hcon
          simp [isSpTab] at this
        rw [spacesSingle, Bool.and_eq_true]
        refine ⟨by simp [hX], ih _ hlen⟩
      · rw [cleanStep5Go, if_neg hsp]
        have hc : ¬(c = ' ') := fun hc => hsp (by simp [isSpTab, hc])
        rw [spacesSingle, Bool.and_eq_true]
        refine ⟨by simp [hc], ih cs (by omega)⟩

theorem step5Go_mem : ∀ (fuel : Nat) (l : List Char) (c : Char), l.length ≤ fuel →
    c ∈ cleanStep5Go fuel l → c = ' ' ∨ (c ∈ l ∧ isSpTab c = false) := by
  intro fuel
  induction fuel with
  | zero =>
    intro l c hl hc
    have hnil : l = [] := List.length_eq_zero.mp (by omega)
    subst hnil
    cases hc
  | succ n ih =>
    intro l c hl hc
    cases l with
    | nil => cases hc
    | cons c0 cs =>
      rw [List.length_cons] at hl
      by_cases hsp : isSpTab c0
      · rw [cleanStep5Go, if_pos hsp] at hc
        rcases List.mem_cons.mp hc with rfl | hc2
        · exact Or.inl rfl
        · have hlen : (cs.dropWhile isSpTab).length ≤ n :=
            le_trans (List.dropWhile_sublist isSpTab).length_le (by omega)
          rcases ih _ c hlen hc2 with h1 | ⟨h1, h2⟩
          · exact Or.inl h1
          · exact Or.inr ⟨List.mem_cons_of_mem c0 ((List.dropWhile_sublist isSpTab).subset h1), h2⟩
      · rw [cleanStep5Go, if_neg hsp] at hc
        rcases List.mem_cons.mp hc with rfl | hc2
        · exact Or.inr ⟨List.mem_cons_self c cs, by simpa using hsp⟩
        · rcases ih cs c (by omega) hc2 with h1 | ⟨h1, h2⟩
          · exact Or.inl h1
          · exact Or.inr ⟨List.mem_cons_of_mem c0 h1, h2⟩

theorem step5Go_id_of : ∀ (fuel : Nat) (l : List Char), spacesSingle l = true →
    (∀ c ∈ l, c ≠ '\t') → cleanStep5Go fuel l = l := by
  intro fuel
  induction fuel with
  | zero => intro l _ _; rfl
  | succ n ih =>
    intro l hss hnt
    cases l with
    | nil => rfl
    | cons c cs =>
      by_cases hsp : isSpTab c
      · have hc : c = ' ' := by
          have h2 : c = ' ' ∨ c = '\t' := by simpa [isSpTab] using hsp
          rcases h2 with h2 | h2
          · exact h2
          · exact absurd h2 (hnt c (List.mem_cons_self c cs))
        have hcs : cs.dropWhile isSpTab = cs := by
          cases cs with
          | nil => rfl
          | cons d cs2 =>
            have hd1 : d ≠ '\t' :=
              hnt d (List.mem_cons_of_mem c (List.mem_cons_self d cs2))
            have hd2 : ¬(d = ' ') := by
              rw [spacesSingle, Bool.and_eq_true] at hss
              obtain ⟨hb1, -⟩ := hss
              subst hc
              simpa using hb1
            rw [List.dropWhile_cons_of_neg]
            simp [isSpTab, hd1, hd2]
        rw [cleanStep5Go, if_pos hsp, hcs,
          ih cs (spacesSingle_tail hss) (fun d hd => hnt d (List.mem_cons_of_mem c hd)), hc]
      · rw [cleanStep5Go, if_neg hsp,
          ih cs (spacesSingle_tail hss) (fun d hd => hnt d (List.mem_cons_of_mem c hd))]

theorem pyStrip_subset (l : List Char) : ∀ c ∈ pyStrip l, c ∈ l := by
  intro c hc
  rw [pyStrip] at hc
  have h1 := List.mem_reverse.mp hc
  have h2 := (List.dropWhile_sublist isPySpace).subset h1
  have h3 := List.mem_reverse.mp h2
  exact (List.dropWhile_sublist isPySpace).subset h3

theorem pyStrip_getLast?_not (l : List Char) (d : Char)
    (h : (pyStrip l).getLast? = some d) : isPySpace d = false := by
  rw [pyStrip, List.getLast?_reverse] at h
  exact dropWhile_head?_not isPySpace _ d h

theorem pyStrip_head?_not (l : List Char) (d : Char)
    (h : (pyStrip l).head? = some d) : isPySpace d = false := by
  rw [pyStrip, List.head?_reverse] at h
  obtain ⟨pre, hpre⟩ :=
    List.dropWhile_suffix (l := (l.dropWhile isPySpace).reverse) isPySpace
  have h2 : ((l.dropWhile isPySpace).reverse).getLast? = some d := by
    rw [← hpre, List.getLast?_append, h]
    rfl
  rw [List.getLast?_reverse] at h2
  exact dropWhile_head?_not isPySpace _ d h2

theorem pyStrip_eq_self (l : List Char)
    (hh : ∀ d, l.head? = some d → isPySpace d = false)
    (hl : ∀ d, l.getLast? = some d → isPySpace d = false) : pyStrip l = l := by
  have h1 : l.dropWhile isPySpace = l := by
    cases l with
    | nil => rfl
    | cons c cs =>
      rw [List.dropWhile_cons_of_neg]
      simp [hh c rfl]
  rw [pyStrip, h1]
  have h2 : l.reverse.dropWhile isPySpace = l.reverse := by
    cases hrev : l.reverse with
    | nil => rfl
    | cons c cs =>
      rw [List.dropWhile_cons_of_neg]
      have h3 : l.getLast? = some c := by
        rw [← List.head?_reverse, hrev]
        rfl
      simp [hl c h3]
  rw [h2, List.reverse_reverse]

theorem pyStrip_idem (l : List Char) : pyStrip (pyStrip l) = pyStrip l :=
  pyStrip_eq_self _ (pyStrip_head?_not l) (pyStrip_getLast?_not l)

theorem spacesSingle_pyStrip (l : List Char) (h : spacesSingle l = true) :
    spacesSingle (pyStrip l) = true := by
  obtain ⟨pre, hpre⟩ := List.dropWhile_suffix (l := l) isPySpace
  have h1 : spacesSingle (l.dropWhile isPySpace) = true :=
    spacesSingle_append_right pre _ (by rw [hpre]; exact h)
  have hsuf : (l.dropWhile isPySpace).reverse.dropWhile isPySpace <:+
      (l.dropWhile isPySpace).reverse := List.dropWhile_suffix _
  have hpref : ((l.dropWhile isPySpace).reverse.dropWhile isPySpace).reverse <+:
      l.dropWhile isPySpace := by
    have h0 := List.reverse_prefix.mpr hsuf
    rwa [List.reverse_reverse] at h0
  obtain ⟨suf, hsufeq⟩ := hpref
  exact spacesSingle_append_left _ suf (by rw [pyStrip, hsufeq]; exact h1)

theorem clean_text_eq_comp (t : List Char) (h : t.isEmpty = false) :
    clean_text t = pyStrip (nfc (cleanStep7 (cleanStep6 (cleanStep5 (cleanStep4
      (cleanStep3 (cleanStep2d (cleanStep2c (cleanStep2b (cleanStep2a
        (cleanStep1 t))))))))))) := by
  rw [clean_text, if_neg (by simp [h])]
  simp only [cleanSteps, runSteps]

/-- C8 (amended): `clean_text` is not idempotent in general — a second
pass can re-collapse newline runs assembled by the space-trimming steps
(see the counterexample) — but it is idempotent on every input free of
newline characters: the newline steps are then the identity, the
character replacements remove exactly the classes they test for, the
space collapapse leaves no tab and no adjacent spaces, and the final
strip is idempotent (NFC modelled as the identity). -/
theorem clean_text_idempotent_noNewline (t : List Char) (h : ∀ c ∈ t, c ≠ '\n') :
    clean_text (clean_text t) = clean_text t := by
  by_cases ht : t.isEmpty
  · have ht2 : t = [] := by
      cases t with
      | nil => rfl
      | cons a b => simp [List.isEmpty] at ht
    subst ht2
    rfl
  · rw [clean_text_eq_comp t (by simpa using ht)]
    set X := cleanStep2d (cleanStep2c (cleanStep2b (cleanStep2a (cleanStep1 t)))) with hX
    have h1 : ∀ c ∈ cleanStep1 t, c ≠ '\n' := by
      intro c hc
      rw [cleanStep1] at hc
      rcases mem_repl hc with rfl | ⟨hc2, -⟩
      · decide
      · exact h c hc2
    have h2 : ∀ c ∈ X, c ≠ '\n' := by
      intro c hc
      rw [hX, cleanStep2d] at hc
      rcases mem_repl hc with rfl | ⟨hc2, -⟩
      · decide
      · rw [cleanStep2c] at hc2
        rcases mem_repl hc2 with rfl | ⟨hc3, -⟩
        · decide
        · rw [cleanStep2b_id, cleanStep2a_id] at hc3
          exact h1 c hc3
    have e3 : cleanStep3 X = X := by
      rw [cleanStep3]
      exact cleanStep3Go_id X none h2
    have e4 : cleanStep4 X = X := by
      rw [cleanStep4]
      exact cleanStep4Go_id X.length X h2
    rw [e3, e4]
    set Y := cleanStep5 X with hY
    have h3 : ∀ c ∈ Y, c ≠ '\n' := by
      intro c hc
      rw [hY, cleanStep5] at hc
      rcases step5Go_mem X.length X c le_rfl hc with rfl | ⟨hc2, -⟩
      · decide
      · exact h2 c hc2
    have e6 : cleanStep6 Y = Y := by
      rw [cleanStep6]
      exact cleanStep6Go_id Y.length Y h3
    have e7 : cleanStep7 Y = Y := by
      rw [cleanStep7]
      exact cleanStep7Go_id Y.length Y h3
    rw [e6, e7, nfc]
    set u := pyStrip Y with hu
    have hYss : spacesSingle Y = true := by
      rw [hY, cleanStep5]
      exact step5Go_spacesSingle X.length X le_rfl
    have hYnt : ∀ c ∈ Y, c ≠ '\t' := by
      intro c hc
      rw [hY, cleanStep5] at hc
      rcases step5Go_mem X.length X c le_rfl hc with rfl | ⟨-, h5⟩
      · decide
      · intro hcon
        subst hcon
        simp [isSpTab] at h5
    have hunl : ∀ c ∈ u, c ≠ '\n' := fun c hc => h3 c (pyStrip_subset Y c hc)
    have hunt : ∀ c ∈ u, c ≠ '\t' := fun c hc => hYnt c (pyStrip_subset Y c hc)
    have huss : spacesSingle u = true := spacesSingle_pyStrip Y hYss
    have hmemuX : ∀ c ∈ u, c = ' ' ∨ c ∈ X := by
      intro c hc
      have h6 := pyStrip_subset Y c hc
      rw [hY, cleanStep5] at h6
      rcases step5Go_mem X.length X c le_rfl h6 with rfl | ⟨hc2, -⟩
      · exact Or.inl rfl
      · exact Or.inr hc2
    have hXinv : ∀ c ∈ X, isInvisibleChar c = false := by
      intro c hc
      rw [hX, cleanStep2d] at hc
      rcases mem_repl hc with rfl | ⟨hc2, -⟩
      · decide
      · rw [cleanStep2c] at hc2
        rcases mem_repl hc2 with rfl | ⟨hc3, -⟩
        · decide
        · rw [cleanStep2b_id, cleanStep2a_id, cleanStep1] at hc3
          rcases mem_repl hc3 with rfl | ⟨-, h6⟩
          · decide
          · exact h6
    have hXdash : ∀ c ∈ X, isDashChar c = false := by
      intro c hc
      rw [hX, cleanStep2d] at hc
      rcases mem_repl hc with rfl | ⟨hc2, -⟩
      · decide
      · rw [cleanStep2c] at hc2
        rcases mem_repl hc2 with rfl | ⟨-, h6⟩
        · decide
        · exact h6
    have hXbul : ∀ c ∈ X, isBulletChar c = false := by
      intro c hc
      rw [hX, cleanStep2d] at hc
      rcases mem_repl hc with rfl | ⟨-, h6⟩
      · decide
      · exact h6
    have huinv : ∀ c ∈ u, isInvisibleChar c = false := by
      intro c hc
      rcases hmemuX c hc with rfl | hc2
      · decide
      · exact hXinv c hc2
    have hudash : ∀ c ∈ u, isDashChar c = false := by
      intro c hc
      rcases hmemuX c hc with rfl | hc2
      · decide
      · exact hXdash c hc2
    have hubul : ∀ c ∈ u, isBulletChar c = false := by
      intro c hc
      rcases hmemuX c hc with rfl | hc2
      · decide
      · exact hXbul c hc2
    by_cases hu0 : u.isEmpty
    · have hu2 : u = [] := by
        cases hueq : u with
        | nil => rfl
        | cons a b => rw [hueq] at hu0; simp [List.isEmpty] at hu0
      rw [hu2]
      rfl
    · rw [clean_text_eq_comp u (by simpa using hu0)]
      rw [show cleanStep1 u = u from by rw [cleanStep1]; exact map_repl_id huinv]
      rw [cleanStep2a_id, cleanStep2b_id]
      rw [show cleanStep2c u = u from by rw [cleanStep2c]; exact map_repl_id hudash]
      rw [show cleanStep2d u = u from by rw [cleanStep2d]; exact map_repl_id hubul]
      rw [show cleanStep3 u = u from by rw [cleanStep3]; exact cleanStep3Go_id u none hunl]
      rw [show cleanStep4 u = u from by
        rw [cleanStep4]; exact cleanStep4Go_id u.length u hunl]
      rw [show cleanStep5 u = u from by
        rw [cleanStep5]; exact step5Go_id_of u.length u huss hunt]
      rw [show cleanStep6 u = u from by
        rw [cleanStep6]; exact cleanStep6Go_id u.length u hunl]
      rw [show cleanStep7 u = u from by
        rw [cleanStep7]; exact cleanStep7Go_id u.length u hunl]
      rw [nfc, hu]
      exact pyStrip_idem Y

/-- Witness for C8 (amended) at a concrete newline-free input. -/
theorem clean_text_idempotent_noNewline_witness :
    clean_text (clean_text "ab  cd".data) = clean_text "ab  cd".data :=
  clean_text_idempotent_noNewline "ab  cd".data (by decide)

/-- Counterexample to C8 as stated: the cleaned form of
`"x.\n \n \n1. y"` is `"x.\n\n\n1. y"` (the space-trim step joins the
space-separated newlines into a run of three), and a second pass
collapses that run to two newlines, so `clean_text` is not
idempotent. -/
theorem clean_text_idempotent_cex :
    clean_text (clean_text "x.\n \n \n1. y".data) ≠ clean_text "x.\n \n \n1. y".data := by
  decide

/-- Counterexample to C2 as stated: with content of 60 letters followed
by 10 spaces, chunk size 60 and overlap 10, one chunk is emitted and the
trailing window `[50, 70)` is skipped (its trimmed text has 10 < 50
characters), so the last emitted chunk's `char_end` is 60, not the
content length 70. -/
theorem chunk_text_last_end_cex :
    (List.replicate 60 'a' ++ List.replicate 10 ' ').length = 70 ∧
    chunk_text (List.replicate 60 'a' ++ List.replicate 10 ' ') 60 10 =
      [(0, 0, 60, List.replicate 60 'a')] ∧
    ¬ ∀ h : chunk_text (List.replicate 60 'a' ++ List.replicate 10 ' ') 60 10 ≠ [],
        ((chunk_text (List.replicate 60 'a' ++ List.replicate 10 ' ') 60 10).getLast h).2.2.1 =
          (List.replicate 60 'a' ++ List.replicate 10 ' ').length := by
  refine ⟨by decide, by decide, ?_⟩
  intro hall
  have := hall (by decide)
  revert this
  decide
